import Mathlib

/-!
# SFP: a tab-indented, line-oriented text codec (sfp.cpp, version 3)

A shallow embedding of `SFP::Writer` and `SFP::Reader`.

* A byte (`char`, `uint8_t`) is a `Nat` below 256; a stream is a `List Nat`.
* A `const char*` argument is the list of its bytes before the terminator (so it holds no
  zero byte); `nullptr` is `none`.
* `uint32_t indent` is a `Nat` reduced modulo `2^32` wherever the code adds or subtracts;
  `size_t` is reduced modulo `2^64`, `long` is the 64-bit signed range (LP64).
* `SFP_PANIC` (print and `exit(1)`) is an `Except.error` carrying which panic it was.
  Two further outcomes, `out_of_bounds` and `use_after_free`, mark the places where the
  C++ leaves the behaviour undefined: they are not panics of the program.
* The sink accepts every byte offered to `fwrite`; the source is the list of bytes that are
  still unread.
-/

namespace SFP

deriving instance DecidableEq for Except

/-! ## Constants -/

def MAX_TAB_LEN : Nat := 32
def MAX_LABEL_LEN : Nat := 32
def MAX_VALUE_LEN : Nat := 32
def MAX_LINE_LEN : Nat := MAX_TAB_LEN + MAX_LABEL_LEN + MAX_VALUE_LEN

/-- The tab character. -/
def TAB : Nat := 9
/-- The newline character. -/
def NL : Nat := 10
/-- The space character. -/
def SPACE : Nat := 32
/-- The colon character. -/
def COLON : Nat := 58
/-- The minus sign. -/
def MINUS : Nat := 45
/-- The plus sign. -/
def PLUS : Nat := 43

/-- Type tag of an int32 field, the character i. -/
def TAG_I : Nat := 105
/-- Type tag of a uint32 field, the character u. -/
def TAG_U : Nat := 117
/-- Type tag of a float64 field, the character f. -/
def TAG_F : Nat := 102
/-- Type tag of a binary field, the character b. -/
def TAG_B : Nat := 98
/-- Type tag of an array header, the character a. -/
def TAG_A : Nat := 97
/-- Type tag of an object header, the character o. -/
def TAG_O : Nat := 111

/-- The outcomes that end a call without a result. The first fourteen are the panics of
sfp.cpp, named after their messages; the last two are undefined behaviour. -/
inductive Err
  | fwrite_failed
  | label_too_long
  | fread_failed
  | expected_indent
  | fgets_failed
  | label_mismatch
  | expected_colon
  | type_mismatch
  | expected_space
  | i32_parse_error
  | u32_parse_error
  | f64_parse_error
  | size_parse_error
  | expected_new_line
  | out_of_bounds
  | use_after_free
  deriving DecidableEq

/-- Reduction of a value to `uint32_t`. -/
def uint32 (n : Nat) : Nat := n % 4294967296

/-- Reduction of a value to `size_t` (64 bits). -/
def size_t (n : Nat) : Nat := n % 18446744073709551616

/-- Conversion of a `long` to `size_t`. -/
def long_to_usize (v : Int) : Nat := (v % 18446744073709551616).toNat

/-- Conversion of a `long` to `int32_t`: the low 32 bits, read as two's complement. -/
def long_to_i32 (v : Int) : Int := (v + 2147483648) % 4294967296 - 2147483648

def LONG_MAX : Int := 9223372036854775807
def LONG_MIN : Int := -9223372036854775808

/-! ## The C library pieces the codec calls -/

/-- Decimal digits of `n`, most significant first, prepended to `acc`; `fuel` bounds the
number of digits. -/
def decimal_loop : Nat → Nat → List Nat → List Nat
  | 0, _, acc => acc
  | fuel + 1, n, acc =>
    if n < 10 then (48 + n) :: acc
    else decimal_loop fuel (n / 10) ((48 + n % 10) :: acc)

/-- The text `sprintf` produces for an unsigned decimal conversion (`%u`, `%zu`). -/
def decimal (n : Nat) : List Nat := decimal_loop (n + 1) n []

/-- The text `sprintf(buf, "%i", value)` produces. -/
def fmt_i (value : Int) : List Nat :=
  if value < 0 then MINUS :: decimal (-value).toNat else decimal value.toNat

/-- The text `sprintf(buf, "%u", value)` produces. -/
def fmt_u (value : Nat) : List Nat := decimal value

/-- The text `sprintf(buf, "%zu", value)` produces. -/
def fmt_zu (value : Nat) : List Nat := decimal value

/-- A `double`: a finite value `(-1)^neg * m * 2^e` (for an IEEE double `m < 2^53` and
`-1074 ≤ e ≤ 971`), an infinity or a NaN. -/
inductive F64
  | finite (neg : Bool) (m : Nat) (e : Int)
  | inf (neg : Bool)
  | nan (neg : Bool)
  deriving DecidableEq

/-- Six decimal digits of `k % 10^6`, zero padded. -/
def pad6 (k : Nat) : List Nat :=
  [48 + k / 100000 % 10, 48 + k / 10000 % 10, 48 + k / 1000 % 10,
   48 + k / 100 % 10, 48 + k / 10 % 10, 48 + k % 10]

/-- The magnitude `m * 2^e` in millionths, rounded to nearest, ties to even. -/
def scaled6 (m : Nat) (e : Int) : Nat :=
  if 0 ≤ e then m * 2 ^ e.toNat * 1000000
  else
    let num := m * 1000000
    let den := 2 ^ (-e).toNat
    let q := num / den
    let r := num % den
    if den < 2 * r ∨ (2 * r = den ∧ q % 2 = 1) then q + 1 else q

/-- The text `sprintf(buf, "%f", value)` produces: six fractional digits. -/
def fmt_f : F64 → List Nat
  | .finite neg m e =>
    let n := scaled6 m e
    (if neg then [MINUS] else []) ++ decimal (n / 1000000) ++ [46] ++ pad6 n
  | .inf neg => (if neg then [MINUS] else []) ++ [105, 110, 102]
  | .nan neg => (if neg then [MINUS] else []) ++ [110, 97, 110]

/-- The characters `fgets` stores when it may store at most `k` of them, and the bytes it
leaves unread: it stops after a newline or at the end of the source. -/
def fgets_scan : Nat → List Nat → List Nat × List Nat
  | 0, file => ([], file)
  | _ + 1, [] => ([], [])
  | k + 1, c :: file =>
    if c = NL then ([c], file)
    else ((c :: (fgets_scan k file).1), (fgets_scan k file).2)

/-- The call `fgets(buf, n, file)`: `none` is the null result (end of source with nothing
read). The buffer then holds the returned characters followed by a terminator. -/
def fgets (n : Nat) (file : List Nat) : Option (List Nat × List Nat) :=
  let res := fgets_scan (n - 1) file
  if res.1 = [] then none else some res

/-- The call `strlen` on a buffer holding `chars` followed by a terminator. -/
def strlen (chars : List Nat) : Nat := (chars.takeWhile (fun c => c ≠ 0)).length

/-- The test `memcmp(line, label, strlen(label)) != 0` on the terminated text `line`: the
first differing byte decides, and a label byte (never zero) facing the terminator of a
shorter line differs from it. -/
def memcmp_differs : List Nat → List Nat → Bool
  | _, [] => false
  | [], _ :: _ => true
  | c :: line, l :: label => if c = l then memcmp_differs line label else true

/-- The C `isspace` in the "C" locale. -/
def isspace (c : Nat) : Bool := c = 32 ∨ (9 ≤ c ∧ c ≤ 13)

/-- The C `isdigit`. -/
def isdigit (c : Nat) : Bool := 48 ≤ c ∧ c ≤ 57

/-- Value of a run of decimal digit characters, most significant first. -/
def digits_value (ds : List Nat) : Nat := ds.foldl (fun acc c => acc * 10 + (c - 48)) 0

/-- The call `strtol(text, &end, 10)`: the `long` result and the text at `end`. Leading
white space and one sign are skipped; without a digit nothing is consumed and the result
is 0; a value outside `long` is clamped (all digits are still consumed). -/
def strtol (text : List Nat) : Int × List Nat :=
  let s := text.dropWhile isspace
  let neg := s.head? = some MINUS
  let s := if s.head? = some MINUS ∨ s.head? = some PLUS then s.tail else s
  let ds := s.takeWhile isdigit
  if ds = [] then (0, text)
  else
    let mag : Int := digits_value ds
    let v := if neg then max (-mag) LONG_MIN else min mag LONG_MAX
    (v, s.dropWhile isdigit)

/-- The character a `char*` points at: the terminator when the text is exhausted. -/
def deref (text : List Nat) : Nat := text.headD 0

/-- What the codec cannot see of its platform.
`stale text` is the terminated text a load finds at a pointer into a block that has been
passed to `free`, where the block held `text` from that pointer on before; `none` when
the load has no defined result. `fresh i` is the byte a newly allocated block holds at
index `i`. -/
structure Env where
  stale : List Nat → Option (List Nat)
  fresh : Nat → Nat

/-- The platform as the C++ standard fixes it: a load from a freed block is undefined. -/
def Env.strict : Env := ⟨fun _ => none, fun _ => 0⟩

/-- A platform whose `free` leaves the bytes of the block in place. -/
def Env.intact : Env := ⟨fun text => some text, fun _ => 0⟩

/-- Modelled from the spec: the `ar<uint8_t>` buffer type, whose declaration is not in
sfp.cpp. `buf` is the storage, `len` the reported length; `alloc n` gives storage of `n`
bytes with `len = n`; indexing is unchecked, so an index outside the storage is an
out-of-bounds access. -/
structure Ar where
  buf : List Nat
  len : Nat
  deriving DecidableEq

/-- The call `ar<uint8_t>::alloc(n)`. -/
def Ar.alloc (env : Env) (n : Nat) : Ar := ⟨(List.range n).map env.fresh, n⟩

/-- A load `array[i]`. -/
def Ar.get (array : Ar) (i : Nat) : Except Err Nat :=
  match array.buf.get? i with
  | some b => .ok b
  | none => .error .out_of_bounds

/-- A store `array[i] = b`. -/
def Ar.set (array : Ar) (i : Nat) (b : Nat) : Except Err Ar :=
  if i < array.buf.length then .ok { array with buf := array.buf.set i b }
  else .error .out_of_bounds

/-! ## Writer -/

/-- The writer: the bytes the sink has received and the nesting depth. -/
structure Writer where
  file : List Nat
  indent : Nat
  deriving DecidableEq

/-- The method `Writer::write<char>(src_ptr, count)`; `fwrite` returns `count`. -/
def Writer.write (w : Writer) (src : List Nat) (count : Nat) : Except Err Writer :=
  let write_count := count
  if write_count = 0 ∨ write_count < count then .error .fwrite_failed
  else .ok { w with file := w.file ++ src.take count }

def Writer.write_label (w : Writer) (label : Option (List Nat)) (type : Nat) :
    Except Err Writer := do
  let w ← match label with
    | some l =>
      let label_len := l.length
      if label_len > MAX_LABEL_LEN then .error .label_too_long
      else w.write l label_len
    | none => .ok w
  let w ← w.write [COLON] 1
  let w ← w.write [type] 1
  w.write [SPACE] 1

/-- The loop of `write_indent`, with `n` iterations left. -/
def Writer.write_indent_loop : Nat → Writer → Except Err Writer
  | 0, w => .ok w
  | n + 1, w => do
    let w ← w.write [TAB] 1
    Writer.write_indent_loop n w

def Writer.write_indent (w : Writer) : Except Err Writer :=
  Writer.write_indent_loop w.indent w

def Writer.write_newline (w : Writer) : Except Err Writer := w.write [NL] 1

/-- The method `write_num`, given the text `sprintf` produces for the format and value:
the text and its terminator go to `char buf[MAX_VALUE_LEN]`. -/
def Writer.write_num (w : Writer) (text : List Nat) : Except Err Writer :=
  if text.length + 1 > MAX_VALUE_LEN then .error .out_of_bounds
  else
    let len := text.length
    w.write text len

def Writer.write_i32 (w : Writer) (label : Option (List Nat)) (value : Int) :
    Except Err Writer := do
  let w ← w.write_indent
  let w ← w.write_label label TAG_I
  let w ← w.write_num (fmt_i value)
  w.write_newline

def Writer.write_u32 (w : Writer) (label : Option (List Nat)) (value : Nat) :
    Except Err Writer := do
  let w ← w.write_indent
  let w ← w.write_label label TAG_U
  let w ← w.write_num (fmt_u value)
  w.write_newline

def Writer.write_f64 (w : Writer) (label : Option (List Nat)) (value : F64) :
    Except Err Writer := do
  let w ← w.write_indent
  let w ← w.write_label label TAG_F
  let w ← w.write_num (fmt_f value)
  w.write_newline

def half_byte_to_hex_char (half_byte : Nat) : Nat :=
  if half_byte < 10 then (48 + half_byte) % 256 else (97 + (half_byte - 10)) % 256

def Writer.write_byte_hex (w : Writer) (byte : Nat) : Except Err Writer :=
  let hex := [half_byte_to_hex_char (byte / 16 % 16), half_byte_to_hex_char (byte % 16)]
  w.write hex 2

/-- The byte loop of `write_bin`: `n` iterations left, the next index is `i`. -/
def Writer.write_bin_loop (value : Ar) : Nat → Nat → Writer → Except Err Writer
  | 0, _, w => .ok w
  | n + 1, i, w => do
    let byte ← value.get i
    let w ← w.write_byte_hex byte
    Writer.write_bin_loop value n (i + 1) w

def Writer.write_bin (w : Writer) (label : Option (List Nat)) (value : Ar) :
    Except Err Writer := do
  let w ← w.write_indent
  let w ← w.write_label label TAG_B
  let w ← w.write_num (fmt_zu value.len ++ [NL])
  let w := { w with indent := uint32 (w.indent + 1) }
  let w ← w.write_indent
  let w ← Writer.write_bin_loop value value.len 0 w
  let w := { w with indent := uint32 (w.indent + 4294967295) }
  w.write_newline

/-- Here `value` is the text of the C string, stored with its terminator. -/
def Writer.write_cstr (w : Writer) (label : Option (List Nat)) (value : List Nat) :
    Except Err Writer :=
  let array : Ar := ⟨value ++ [0], value.length⟩
  w.write_bin label array

def Writer.write_arr_bgn (w : Writer) (label : Option (List Nat)) (size : Nat) :
    Except Err Writer := do
  let w ← w.write_indent
  let w ← w.write_label label TAG_A
  let w ← w.write_num (fmt_zu size)
  let w ← w.write_newline
  .ok { w with indent := uint32 (w.indent + 1) }

def Writer.write_arr_end (w : Writer) : Writer :=
  { w with indent := uint32 (w.indent + 4294967295) }

def Writer.write_obj_bgn (w : Writer) (label : Option (List Nat)) : Except Err Writer := do
  let w ← w.write_indent
  let w ← w.write_label label TAG_O
  let w ← w.write_newline
  .ok { w with indent := uint32 (w.indent + 1) }

def Writer.write_obj_end (w : Writer) : Writer :=
  { w with indent := uint32 (w.indent + 4294967295) }

/-! ## Reader -/

/-- The reader: the bytes of the source not yet consumed and the nesting depth. -/
structure Reader where
  file : List Nat
  indent : Nat
  deriving DecidableEq

/-- The method `Reader::read<char>(dst_ptr, count)`: the bytes stored at `dst_ptr`. -/
def Reader.read (r : Reader) (count : Nat) : Except Err (List Nat × Reader) :=
  let got := r.file.take count
  let read_count := got.length
  if read_count = 0 ∨ read_count < count then .error .fread_failed
  else .ok (got, { r with file := r.file.drop count })

/-- The method `read_indent`: `fread` stores what it reads in `char buf[MAX_TAB_LEN]`. -/
def Reader.read_indent (r : Reader) : Except Err Reader :=
  if r.indent = 0 then .ok r
  else if (r.file.take r.indent).length > MAX_TAB_LEN then .error .out_of_bounds
  else do
    let (buf, r) ← r.read r.indent
    if buf.any (fun c => c ≠ TAB) then .error .expected_indent else .ok r

/-- The method `read_line`: the text of the returned buffer. The last character before the
terminator is overwritten with a terminator, whatever it is. -/
def Reader.read_line (r : Reader) : Except Err (List Nat × Reader) := do
  let r ← r.read_indent
  match fgets MAX_LINE_LEN r.file with
  | none => .error .fgets_failed
  | some (chars, rest) =>
    if strlen chars = 0 then .error .out_of_bounds
    else .ok (chars.take (strlen chars - 1), { r with file := rest })

/-- The method `read_label`: the text at the returned pointer. -/
def read_label (label : Option (List Nat)) (expected_type : Nat) (line : List Nat) :
    Except Err (List Nat) := do
  let line ← match label with
    | some l =>
      let label_len := l.length
      if memcmp_differs line l then .error .label_mismatch
      else .ok (line.drop label_len)
    | none => .ok line
  if deref line ≠ COLON then .error .expected_colon
  else
    let line := line.drop 1
    let type := deref line
    if type ≠ expected_type then .error .type_mismatch
    else
      let line := line.drop 1
      if deref line ≠ SPACE then .error .expected_space
      else .ok (line.drop 1)

def Reader.read_i32 (r : Reader) (label : Option (List Nat)) : Except Err (Int × Reader) := do
  let (line_ptr, r) ← r.read_line
  let value_ptr ← read_label label TAG_I line_ptr
  let (value, value_end) := strtol value_ptr
  if deref value_end ≠ 0 then .error .i32_parse_error
  else .ok (long_to_i32 value, r)

def Reader.read_u32 (r : Reader) (label : Option (List Nat)) : Except Err (Nat × Reader) := do
  let (line_ptr, r) ← r.read_line
  let value_ptr ← read_label label TAG_U line_ptr
  let (value, value_end) := strtol value_ptr
  if deref value_end ≠ 0 ∨ value < 0 then .error .u32_parse_error
  else .ok (0, r)

/-- The method `read_f64`; `strtod` gives the `double` and the text at `end`. -/
def Reader.read_f64 (strtod : List Nat → F64 × List Nat) (r : Reader)
    (label : Option (List Nat)) : Except Err (F64 × Reader) := do
  let (line_ptr, r) ← r.read_line
  let value_ptr ← read_label label TAG_F line_ptr
  let (value, value_end) := strtod value_ptr
  if deref value_end ≠ 0 then .error .f64_parse_error
  else .ok (value, r)

def hex_char_to_byte (hex_char : Nat) : Nat :=
  if 48 ≤ hex_char ∧ hex_char ≤ 57 then (hex_char - 48) % 256
  else (hex_char + 256 - 97 + 10) % 256

def Reader.read_byte_hex (r : Reader) : Except Err (Nat × Reader) := do
  let (hex_digits, r) ← r.read 2
  .ok ((hex_char_to_byte (hex_digits.getD 0 0) * 16 ||| hex_char_to_byte (hex_digits.getD 1 0)) % 256, r)

/-- The byte loop of `read_bin`: `n` iterations left, the next index is `i`. -/
def Reader.read_bin_loop : Nat → Nat → Ar → Reader → Except Err (Ar × Reader)
  | 0, _, array, r => .ok (array, r)
  | n + 1, i, array, r => do
    let (byte, r) ← r.read_byte_hex
    let array ← array.set i byte
    Reader.read_bin_loop n (i + 1) array r

/-- The method `read_bin`. The line buffer is freed before the count is parsed out of it,
so `strtol` and the test of `*value_end` load from the freed block. -/
def Reader.read_bin (env : Env) (r : Reader) (label : Option (List Nat)) :
    Except Err (Ar × Reader) := do
  let (line_ptr, r) ← r.read_line
  let value_ptr ← read_label label TAG_B line_ptr
  match env.stale value_ptr with
  | none => .error .use_after_free
  | some value_ptr =>
    let (parsed, value_end) := strtol value_ptr
    let value := long_to_usize parsed
    if deref value_end ≠ 0 then .error .size_parse_error
    else do
      let r := { r with indent := uint32 (r.indent + 1) }
      let r ← r.read_indent
      let array := Ar.alloc env (size_t (value + 1))
      let array := { array with len := size_t (array.len + 18446744073709551615) }
      let (array, r) ← Reader.read_bin_loop value 0 array r
      let (new_line, r) ← r.read 1
      if new_line.getD 0 0 ≠ NL then .error .expected_new_line
      else .ok (array, { r with indent := uint32 (r.indent + 4294967295) })

/-- The method `read_cstr`: the returned `char*` is the storage of the array. -/
def Reader.read_cstr (env : Env) (r : Reader) (label : Option (List Nat)) :
    Except Err (List Nat × Reader) := do
  let (array, r) ← r.read_bin env label
  let array ← array.set array.len 0
  .ok (array.buf, r)

def Reader.read_arr_bgn (r : Reader) (label : Option (List Nat)) :
    Except Err (Nat × Reader) := do
  let (line_ptr, r) ← r.read_line
  let value_ptr ← read_label label TAG_A line_ptr
  let (value, value_end) := strtol value_ptr
  if deref value_end ≠ 0 then .error .size_parse_error
  else .ok (long_to_usize value, { r with indent := uint32 (r.indent + 1) })

def Reader.read_arr_end (r : Reader) : Reader :=
  { r with indent := uint32 (r.indent + 4294967295) }

def Reader.read_obj_bgn (r : Reader) (label : Option (List Nat)) : Except Err Reader := do
  let (line_ptr, r) ← r.read_line
  let _ ← read_label label TAG_O line_ptr
  .ok { r with indent := uint32 (r.indent + 1) }

def Reader.read_obj_end (r : Reader) : Reader :=
  { r with indent := uint32 (r.indent + 4294967295) }

/-! ## Well-formed arguments -/

/-- The bytes of a C string: each is a `char` other than the terminator. -/
def IsCStr (s : List Nat) : Prop := ∀ c ∈ s, c ≠ 0 ∧ c < 256

instance (s : List Nat) : Decidable (IsCStr s) := by unfold IsCStr; infer_instance

/-- A sequence of `uint8_t` values. -/
def IsBytes (bs : List Nat) : Prop := ∀ b ∈ bs, b < 256

instance (bs : List Nat) : Decidable (IsBytes bs) := by unfold IsBytes; infer_instance

/-- A valid label: absent, or a non-empty C string of at most 32 bytes without a newline. -/
def ValidLabel : Option (List Nat) → Prop
  | none => True
  | some l => IsCStr l ∧ l ≠ [] ∧ l.length ≤ MAX_LABEL_LEN ∧ NL ∉ l

instance (label : Option (List Nat)) : Decidable (ValidLabel label) := by
  cases label <;> unfold ValidLabel <;> infer_instance

/-- The bytes of a label on the wire: nothing when the label is absent. -/
def label_bytes (label : Option (List Nat)) : List Nat := label.getD []

/-- An `int32_t` value. -/
def IsI32 (v : Int) : Prop := -2147483648 ≤ v ∧ v ≤ 2147483647

instance (v : Int) : Decidable (IsI32 v) := by unfold IsI32; infer_instance

/-- The text `ds` is a canonical decimal numeral of `n`: digits only, at least one, of value
`n`, as short as the magnitude of `n` allows, and without a leading zero unless `n = 0`. -/
structure IsDecimalOf (ds : List Nat) (n : Nat) : Prop where
  ne_nil : ds ≠ []
  digit : ∀ c ∈ ds, 48 ≤ c ∧ c ≤ 57
  value : digits_value ds = n
  short : ∀ k, 0 < k → n < 10 ^ k → ds.length ≤ k
  lead : n ≠ 0 → ds.head? ≠ some 48

/-- The bytes of one field line without its indent and newline. -/
def field_line (label : Option (List Nat)) (type : Nat) (value : List Nat) : List Nat :=
  label_bytes label ++ [COLON, type, SPACE] ++ value

/-- Two lowercase hexadecimal characters per byte, the high half first. -/
def hex_text : List Nat → List Nat
  | [] => []
  | b :: bs =>
    half_byte_to_hex_char (b / 16 % 16) :: half_byte_to_hex_char (b % 16) :: hex_text bs

/-! ## The operations as one family

The claims speak of "every field kind" and "every read operation": the writer's emission
methods and the reader's decoding methods are gathered here, each case being the method
itself. -/

/-- A call of one of the writer's emission methods, with its value argument. -/
inductive Field
  | i32 (value : Int)
  | u32 (value : Nat)
  | f64 (value : F64)
  | bin (value : Ar)
  | cstr (value : List Nat)
  | arr_bgn (size : Nat)
  | obj_bgn
  deriving DecidableEq

/-- The reader's decoding methods. -/
inductive ReadOp
  | i32 | u32 | f64 | bin | cstr | arr_bgn | obj_bgn
  deriving DecidableEq

/-- What a decoding method returns. -/
inductive Value
  | i32 (value : Int)
  | u32 (value : Nat)
  | f64 (value : F64)
  | bin (value : Ar)
  | cstr (value : List Nat)
  | arr_bgn (size : Nat)
  | obj_bgn
  deriving DecidableEq

def Writer.write_field (w : Writer) (label : Option (List Nat)) : Field → Except Err Writer
  | .i32 value => w.write_i32 label value
  | .u32 value => w.write_u32 label value
  | .f64 value => w.write_f64 label value
  | .bin value => w.write_bin label value
  | .cstr value => w.write_cstr label value
  | .arr_bgn size => w.write_arr_bgn label size
  | .obj_bgn => w.write_obj_bgn label

def Reader.read_field (env : Env) (strtod : List Nat → F64 × List Nat) (r : Reader)
    (label : Option (List Nat)) : ReadOp → Except Err (Value × Reader)
  | .i32 => (r.read_i32 label).map (fun p => (Value.i32 p.1, p.2))
  | .u32 => (r.read_u32 label).map (fun p => (Value.u32 p.1, p.2))
  | .f64 => (r.read_f64 strtod label).map (fun p => (Value.f64 p.1, p.2))
  | .bin => (r.read_bin env label).map (fun p => (Value.bin p.1, p.2))
  | .cstr => (r.read_cstr env label).map (fun p => (Value.cstr p.1, p.2))
  | .arr_bgn => (r.read_arr_bgn label).map (fun p => (Value.arr_bgn p.1, p.2))
  | .obj_bgn => (r.read_obj_bgn label).map (fun r => (Value.obj_bgn, r))

/-- The type tag a writer method emits. -/
def Field.tag : Field → Nat
  | .i32 _ => TAG_I
  | .u32 _ => TAG_U
  | .f64 _ => TAG_F
  | .bin _ => TAG_B
  | .cstr _ => TAG_B
  | .arr_bgn _ => TAG_A
  | .obj_bgn => TAG_O

/-- The type tag a reader method expects. -/
def ReadOp.tag : ReadOp → Nat
  | .i32 => TAG_I
  | .u32 => TAG_U
  | .f64 => TAG_F
  | .bin => TAG_B
  | .cstr => TAG_B
  | .arr_bgn => TAG_A
  | .obj_bgn => TAG_O

/-- The reader method that mirrors a writer method. -/
def Field.op : Field → ReadOp
  | .i32 _ => .i32
  | .u32 _ => .u32
  | .f64 _ => .f64
  | .bin _ => .bin
  | .cstr _ => .cstr
  | .arr_bgn _ => .arr_bgn
  | .obj_bgn => .obj_bgn

/-- The value text on the header line of a field. -/
def Field.text : Field → List Nat
  | .i32 value => fmt_i value
  | .u32 value => fmt_u value
  | .f64 value => fmt_f value
  | .bin value => fmt_zu value.len
  | .cstr value => fmt_zu value.length
  | .arr_bgn size => fmt_zu size
  | .obj_bgn => []

/-- The bytes a field carries after its header line, written from depth `d`: the payload
line of a binary field. -/
def Field.payload (d : Nat) : Field → List Nat
  | .bin value =>
    List.replicate (uint32 (d + 1)) TAB ++ (hex_text (value.buf.take value.len) ++ [NL])
  | .cstr value => List.replicate (uint32 (d + 1)) TAB ++ (hex_text value ++ [NL])
  | _ => []

/-- The writer depth after the method, called at depth `d`. -/
def Field.depth_after (d : Nat) : Field → Nat
  | .bin _ => uint32 (uint32 (d + 1) + 4294967295)
  | .cstr _ => uint32 (uint32 (d + 1) + 4294967295)
  | .arr_bgn _ => uint32 (d + 1)
  | .obj_bgn => uint32 (d + 1)
  | _ => d

/-- The arguments a writer method can receive and format within its buffers: values of
the parameter's C++ type; for a binary value storage of at least `len` bytes; for a
`double` a text that fits `char buf[MAX_VALUE_LEN]` with its terminator. -/
def Field.WF : Field → Prop
  | .i32 value => IsI32 value
  | .u32 value => value < 4294967296
  | .f64 value => (fmt_f value).length < MAX_VALUE_LEN
  | .bin value =>
    value.len ≤ value.buf.length ∧ value.len < 18446744073709551616 ∧ IsBytes value.buf
  | .cstr value => IsCStr value ∧ value.length < 18446744073709551616
  | .arr_bgn size => size < 18446744073709551616
  | .obj_bgn => True

instance (f : Field) : Decidable f.WF := by
  cases f <;> unfold Field.WF <;> infer_instance

/-- A `strtod` that converts nothing: result zero, `end` at the start of the text. -/
def strtod_none (text : List Nat) : F64 × List Nat := (F64.finite false 0 0, text)

/-- The lowercase hexadecimal digits, in order of value. -/
def lowercase_hex : List Nat :=
  [48, 49, 50, 51, 52, 53, 54, 55, 56, 57, 97, 98, 99, 100, 101, 102]

/-- The lowercase hexadecimal digit of a value below 16. -/
def hex_digit (n : Nat) : Nat := lowercase_hex.getD n 0


/-! ## Sequences of calls -/

/-- One call on a Writer: an emission method with its label and argument, or one of the
two container-end methods. -/
inductive Call
  | field (label : Option (List Nat)) (f : Field)
  | arr_end
  | obj_end
  deriving DecidableEq

def Writer.step (w : Writer) : Call → Except Err Writer
  | .field label f => w.write_field label f
  | .arr_end => .ok w.write_arr_end
  | .obj_end => .ok w.write_obj_end

/-- A sequence of calls on a Writer, stopped by the first panic. -/
def Writer.run : List Call → Writer → Except Err Writer
  | [], w => .ok w
  | c :: cs, w => do
    let w ← w.step c
    Writer.run cs w


/-! ## The numerals strtol converts whole -/

/-- The sign in front of a numeral: none, '-' or '+'. -/
inductive Sign
  | absent
  | minus
  | plus
  deriving DecidableEq

/-- The characters of a sign. -/
def Sign.text : Sign → List Nat
  | .absent => []
  | .minus => [MINUS]
  | .plus => [PLUS]

/-- The integer a sign and a magnitude denote. -/
def Sign.apply : Sign → Nat → Int
  | .minus, n => -(n : Int)
  | _, n => (n : Int)

/-- A text made of optional white space, an optional sign and at least one decimal
digit, and nothing else. -/
def NumeralForm (text : List Nat) : Prop :=
  ∃ ws sg ds, text = ws ++ (Sign.text sg ++ ds) ∧ (∀ c ∈ ws, isspace c = true) ∧ ds ≠ [] ∧
    (∀ c ∈ ds, isdigit c = true)


/-! ## Nesting of a sequence of calls -/

/-- Whether a call opens a container. -/
def Call.is_bgn : Call → Bool
  | .field _ (.arr_bgn _) => true
  | .field _ .obj_bgn => true
  | _ => false

/-- Whether a call closes a container. -/
def Call.is_end : Call → Bool
  | .arr_end => true
  | .obj_end => true
  | _ => false

/-- The number of container-begin calls in a sequence. -/
def begins (cs : List Call) : Nat := cs.countP Call.is_bgn

/-- The number of container-end calls in a sequence. -/
def ends (cs : List Call) : Nat := cs.countP Call.is_end

/-- No leading part of the sequence holds more end calls than begin calls. -/
def WellNested (cs : List Call) : Prop := ∀ k, ends (cs.take k) ≤ begins (cs.take k)

/-- The labels are valid and the arguments well formed in every emission of a sequence. -/
def ValidCalls (cs : List Call) : Prop :=
  ∀ label f, Call.field label f ∈ cs → ValidLabel label ∧ f.WF

/-- The payload line a binary field is to carry when `opened` containers are open:
one tab more than the header line. -/
def Field.payload_line (opened : Nat) : Field → List Nat
  | .bin value =>
    List.replicate (opened + 1) TAB ++ (hex_text (value.buf.take value.len) ++ [NL])
  | .cstr value => List.replicate (opened + 1) TAB ++ (hex_text value ++ [NL])
  | _ => []

/-- The bytes a call is to append when `opened` containers are open: for an emission the
header line behind `opened` tabs and then the payload line, for an end call nothing. -/
def Call.lines (opened : Nat) : Call → List Nat
  | .field label f =>
    List.replicate opened TAB ++ (field_line label f.tag f.text ++ NL :: f.payload_line opened)
  | _ => []

/-- The number of tab characters a byte sequence starts with. -/
def leading_tabs (l : List Nat) : Nat := (l.takeWhile (fun c => c = TAB)).length


/-! ## The mirrored sequence of reader calls -/

/-- One call on a Reader: a decoding method with its expected label, or one of the two
container-end methods. -/
inductive ReadCall
  | field (label : Option (List Nat)) (op : ReadOp)
  | arr_end
  | obj_end
  deriving DecidableEq

/-- The reader call that mirrors a writer call: the same label, the method of the same
kind. -/
def Call.mirror : Call → ReadCall
  | .field label f => .field label f.op
  | .arr_end => .arr_end
  | .obj_end => .obj_end

/-- One reader call: the value it returns, if it is a decoding method. -/
def Reader.step (env : Env) (strtod : List Nat → F64 × List Nat) (r : Reader) :
    ReadCall → Except Err (Option Value × Reader)
  | .field label op => (r.read_field env strtod label op).map (fun p => (some p.1, p.2))
  | .arr_end => .ok (none, r.read_arr_end)
  | .obj_end => .ok (none, r.read_obj_end)

/-- A sequence of calls on a Reader, stopped by the first panic: the values returned. -/
def Reader.run (env : Env) (strtod : List Nat → F64 × List Nat) :
    List ReadCall → Reader → Except Err (List Value × Reader)
  | [], r => .ok ([], r)
  | c :: cs, r => do
    let (v, r) ← r.step env strtod c
    let (vs, r) ← Reader.run env strtod cs r
    .ok (v.toList ++ vs, r)

/-- The value the mirrored read of an emission is to return: the value written; for a
binary value an array of reported length `len` holding the bytes and one more byte of
storage; for a string its bytes and a terminator. -/
def Field.read_back (env : Env) : Field → Value
  | .i32 value => .i32 value
  | .u32 value => .u32 value
  | .f64 value => .f64 value
  | .bin value => .bin ⟨value.buf.take value.len ++ [env.fresh value.len], value.len⟩
  | .cstr value => .cstr (value ++ [0])
  | .arr_bgn size => .arr_bgn size
  | .obj_bgn => .obj_bgn

/-- The values the mirrored sequence of reads is to return. -/
def read_back (env : Env) : List Call → List Value
  | [] => []
  | .field _ f :: cs => f.read_back env :: read_back env cs
  | _ :: cs => read_back env cs

/-- The calls of the mirrored schemas: int32, binary, string, array and object fields,
with a valid label, a value of the parameter's type, a binary value of exactly `len`
bytes, and sizes and counts in the range of `long`. -/
def Call.Mirrored : Call → Prop
  | .field label (.i32 value) => ValidLabel label ∧ IsI32 value
  | .field label (.bin value) =>
    ValidLabel label ∧ value.len = value.buf.length ∧ value.len ≤ 9223372036854775807 ∧
      IsBytes value.buf
  | .field label (.cstr value) =>
    ValidLabel label ∧ IsCStr value ∧ value.length ≤ 9223372036854775807
  | .field label (.arr_bgn size) => ValidLabel label ∧ size ≤ 9223372036854775807
  | .field label .obj_bgn => ValidLabel label
  | .field _ _ => False
  | _ => True


/-! ## Basic facts -/

@[simp] theorem ok_bind {α β : Type} (a : α) (f : α → Except Err β) :
    (Except.ok a >>= f) = f a := rfl

@[simp] theorem error_bind {α β : Type} (e : Err) (f : α → Except Err β) :
    ((Except.error e : Except Err α) >>= f) = Except.error e := rfl

theorem write_ok (w : Writer) (src : List Nat) (h : src ≠ []) :
    w.write src src.length = .ok ⟨w.file ++ src, w.indent⟩ := by
  have hl : src.length ≠ 0 := by simpa using h
  simp [Writer.write, hl]

theorem write_indent_loop_ok (n : Nat) (w : Writer) :
    Writer.write_indent_loop n w = .ok ⟨w.file ++ List.replicate n TAB, w.indent⟩ := by
  induction n generalizing w with
  | zero => simp [Writer.write_indent_loop]
  | succ n ih =>
    have h1 : w.write [TAB] 1 = .ok ⟨w.file ++ [TAB], w.indent⟩ := write_ok w [TAB] (by simp)
    simp [Writer.write_indent_loop, h1, ih, List.replicate_succ]

theorem write_indent_ok (w : Writer) :
    w.write_indent = .ok ⟨w.file ++ List.replicate w.indent TAB, w.indent⟩ :=
  write_indent_loop_ok w.indent w

theorem write_newline_ok (w : Writer) : w.write_newline = .ok ⟨w.file ++ [NL], w.indent⟩ :=
  write_ok w [NL] (by simp)

theorem write_label_ok (w : Writer) (label : Option (List Nat)) (type : Nat)
    (h : ValidLabel label) :
    w.write_label label type =
      .ok ⟨w.file ++ label_bytes label ++ [COLON, type, SPACE], w.indent⟩ := by
  have h1 : ∀ (w : Writer) (c : Nat), w.write [c] 1 = .ok ⟨w.file ++ [c], w.indent⟩ :=
    fun w c => write_ok w [c] (by simp)
  cases label with
  | none => simp [Writer.write_label, h1, label_bytes]
  | some l =>
    obtain ⟨-, hne, hlen, -⟩ := h
    have h2 := write_ok w l hne
    have h3 : ¬ (l.length > MAX_LABEL_LEN) := by omega
    simp [Writer.write_label, h1, h2, h3, label_bytes]

theorem write_num_ok (w : Writer) (text : List Nat) (hne : text ≠ [])
    (hlen : text.length < MAX_VALUE_LEN) :
    w.write_num text = .ok ⟨w.file ++ text, w.indent⟩ := by
  have h3 : ¬ (text.length + 1 > MAX_VALUE_LEN) := by omega
  simp [Writer.write_num, h3, write_ok w text hne]


/-! ## Decimal text -/

theorem digits_value_snoc (ds : List Nat) (c : Nat) :
    digits_value (ds ++ [c]) = digits_value ds * 10 + (c - 48) := by
  simp [digits_value, List.foldl_append]

theorem decimal_loop_spec (fuel n : Nat) (acc : List Nat) (h : n < 10 ^ (fuel + 1)) :
    ∃ ds, decimal_loop (fuel + 1) n acc = ds ++ acc ∧ IsDecimalOf ds n := by
  induction fuel generalizing n acc with
  | zero =>
    have hn : n < 10 := by simpa using h
    refine ⟨[48 + n], by simp [decimal_loop, hn], ⟨by simp, ?_, ?_, ?_, ?_⟩⟩
    · intro c hc
      simp at hc
      omega
    · simp [digits_value]
    · intro k hk _
      simpa using hk
    · intro h0
      simp
      exact h0
  | succ fuel ih =>
    by_cases hn : n < 10
    · refine ⟨[48 + n], by simp [decimal_loop, hn], ⟨by simp, ?_, ?_, ?_, ?_⟩⟩
      · intro c hc
        simp at hc
        omega
      · simp [digits_value]
      · intro k hk _
        simpa using hk
      · intro h0
        simp
        exact h0
    · have hdiv : n / 10 < 10 ^ (fuel + 1) := by
        rw [Nat.div_lt_iff_lt_mul (by norm_num)]
        calc n < 10 ^ (fuel + 1 + 1) := h
          _ = 10 ^ (fuel + 1) * 10 := by ring
      obtain ⟨ds, hds, hdec⟩ := ih (n / 10) ((48 + n % 10) :: acc) hdiv
      refine ⟨ds ++ [48 + n % 10], ?_, ⟨by simp, ?_, ?_, ?_, ?_⟩⟩
      · rw [decimal_loop]
        simp [hn, hds]
      · intro c hc
        simp at hc
        rcases hc with hc | hc
        · exact hdec.digit c hc
        · omega
      · rw [digits_value_snoc, hdec.value]
        omega
      · intro k hk hlt
        have hk2 : 2 ≤ k := by
          by_contra hcon
          have : k = 1 := by omega
          subst this
          simp at hlt
          omega
        have hlt2 : n / 10 < 10 ^ (k - 1) := by
          rw [Nat.div_lt_iff_lt_mul (by norm_num)]
          calc n < 10 ^ k := hlt
            _ = 10 ^ (k - 1 + 1) := by congr 1; omega
            _ = 10 ^ (k - 1) * 10 := by ring
        have := hdec.short (k - 1) (by omega) hlt2
        simp
        omega
      · intro _
        have hq : n / 10 ≠ 0 := by omega
        have := hdec.lead hq
        cases ds with
        | nil => exact absurd rfl hdec.ne_nil
        | cons a t => simpa using this

theorem lt_ten_pow_succ (n : Nat) : n < 10 ^ (n + 1) := by
  calc n < n + 1 := Nat.lt_succ_self n
    _ < 10 ^ (n + 1) := Nat.lt_pow_self (by norm_num) _

theorem decimal_spec (n : Nat) : IsDecimalOf (decimal n) n := by
  obtain ⟨ds, hds, hdec⟩ := decimal_loop_spec n n [] (lt_ten_pow_succ n)
  have : decimal n = ds := by simpa [decimal] using hds
  rw [this]
  exact hdec


/-! ## Parsing decimal text back -/

theorem takeWhile_isdigit_all (ds rest : List Nat) (h : ∀ c ∈ ds, 48 ≤ c ∧ c ≤ 57)
    (hr : isdigit (deref rest) = false) :
    (ds ++ rest).takeWhile isdigit = ds ∧ (ds ++ rest).dropWhile isdigit = rest := by
  induction ds with
  | nil =>
    cases rest with
    | nil => simp
    | cons a t =>
      have : isdigit a = false := by simpa [deref] using hr
      simp [List.takeWhile, List.dropWhile, this]
  | cons a t ih =>
    have ha : isdigit a = true := by
      have := h a (by simp)
      simp [isdigit, this]
    have := ih (fun c hc => h c (by simp [hc]))
    simp [List.takeWhile, List.dropWhile, ha, this]

theorem strtol_decimal (ds rest : List Nat) (n : Nat) (h : IsDecimalOf ds n)
    (hr : isdigit (deref rest) = false) :
    strtol (ds ++ rest) = (min (n : Int) LONG_MAX, rest) := by
  obtain ⟨a, t, rfl⟩ := List.exists_cons_of_ne_nil h.ne_nil
  have ha := h.digit a (by simp)
  have hsp : isspace a = false := by simp [isspace]; omega
  have hm : a ≠ MINUS := by simp [MINUS]; omega
  have hp : a ≠ PLUS := by simp [PLUS]; omega
  obtain ⟨h1, h2⟩ := takeWhile_isdigit_all (a :: t) rest h.digit hr
  have h1c : List.takeWhile isdigit (a :: (t ++ rest)) = a :: t := by simpa using h1
  have h2c : List.dropWhile isdigit (a :: (t ++ rest)) = rest := by simpa using h2
  have hd : (a :: (t ++ rest)).dropWhile isspace = a :: (t ++ rest) := by
    simp [List.dropWhile, hsp]
  simp only [strtol, List.cons_append, hd, List.head?_cons, Option.some.injEq, hm, hp,
    or_self, if_false, h1c, h2c, h.value]
  simp

theorem strtol_minus_decimal (ds rest : List Nat) (n : Nat) (h : IsDecimalOf ds n)
    (hr : isdigit (deref rest) = false) :
    strtol (MINUS :: (ds ++ rest)) = (max (-(n : Int)) LONG_MIN, rest) := by
  obtain ⟨h1, h2⟩ := takeWhile_isdigit_all ds rest h.digit hr
  have hsp : isspace MINUS = false := by decide
  have hd : (MINUS :: (ds ++ rest)).dropWhile isspace = MINUS :: (ds ++ rest) := by
    simp [List.dropWhile, hsp]
  have hne : ds ≠ [] := h.ne_nil
  simp only [strtol, hd, List.head?_cons, true_or, if_true, List.tail_cons, h1, h2, h.value]
  simp [hne]

theorem decimal_length_le (n k : Nat) (hk : 0 < k) (h : n < 10 ^ k) :
    (decimal n).length ≤ k := (decimal_spec n).short k hk h

theorem decimal_ne_nil (n : Nat) : decimal n ≠ [] := (decimal_spec n).ne_nil

theorem fmt_i_ne_nil (v : Int) : fmt_i v ≠ [] := by
  unfold fmt_i
  split
  · simp
  · exact decimal_ne_nil _

theorem fmt_i_length (v : Int) (h : IsI32 v) : (fmt_i v).length ≤ 11 := by
  unfold fmt_i
  obtain ⟨h1, h2⟩ := h
  split
  · have : (decimal (-v).toNat).length ≤ 10 :=
      decimal_length_le _ 10 (by norm_num) (by omega)
    simp
    omega
  · have : (decimal v.toNat).length ≤ 10 :=
      decimal_length_le _ 10 (by norm_num) (by omega)
    omega

theorem fmt_i_chars (v : Int) : ∀ c ∈ fmt_i v, c = MINUS ∨ (48 ≤ c ∧ c ≤ 57) := by
  intro c hc
  unfold fmt_i at hc
  split at hc
  · simp at hc
    rcases hc with hc | hc
    · exact Or.inl hc
    · exact Or.inr ((decimal_spec _).digit c hc)
  · exact Or.inr ((decimal_spec _).digit c hc)

theorem strtol_fmt_i (v : Int) (h : IsI32 v) : strtol (fmt_i v) = (v, []) := by
  obtain ⟨h1, h2⟩ := h
  unfold fmt_i
  split
  · rename_i hneg
    have := strtol_minus_decimal (decimal (-v).toNat) [] _ (decimal_spec _) (by decide)
    simp only [List.append_nil] at this
    rw [this]
    have hc : ((-v).toNat : Int) = -v := Int.toNat_of_nonneg (by omega)
    rw [hc]
    simp [LONG_MIN]
    omega
  · rename_i hneg
    have := strtol_decimal (decimal v.toNat) [] _ (decimal_spec _) (by decide)
    simp only [List.append_nil] at this
    rw [this]
    have hc : (v.toNat : Int) = v := Int.toNat_of_nonneg (by omega)
    rw [hc]
    simp [LONG_MAX]
    omega

theorem long_to_i32_id (v : Int) (h : IsI32 v) : long_to_i32 v = v := by
  obtain ⟨h1, h2⟩ := h
  unfold long_to_i32
  omega


/-! ## Reading one line back -/

theorem read_indent_tabs (d : Nat) (rest : List Nat) (hd : d ≤ MAX_TAB_LEN) :
    Reader.read_indent ⟨List.replicate d TAB ++ rest, d⟩ = .ok ⟨rest, d⟩ := by
  by_cases h0 : d = 0
  · subst h0
    simp [Reader.read_indent]
  · have htake : (List.replicate d TAB ++ rest).take d = List.replicate d TAB := by
      rw [List.take_append_of_le_length (by simp)]
      simp
    have hdrop : (List.replicate d TAB ++ rest).drop d = rest := by
      rw [List.drop_append_of_le_length (by simp)]
      simp
    have hnot : ¬ (d > MAX_TAB_LEN) := by omega
    simp [Reader.read_indent, Reader.read, h0, htake, hdrop, hnot]

theorem fgets_scan_line (k : Nat) (line rest : List Nat) (hnl : NL ∉ line)
    (hlen : line.length < k) :
    fgets_scan k (line ++ NL :: rest) = (line ++ [NL], rest) := by
  induction line generalizing k with
  | nil =>
    obtain ⟨k, rfl⟩ : ∃ j, k = j + 1 := ⟨k - 1, by simp at hlen; omega⟩
    simp [fgets_scan]
  | cons a t ih =>
    obtain ⟨k, rfl⟩ : ∃ j, k = j + 1 := ⟨k - 1, by simp at hlen; omega⟩
    have ha : a ≠ NL := fun h => hnl (by simp [h])
    have := ih k (fun h => hnl (by simp [h])) (by simp at hlen; omega)
    simp [fgets_scan, ha, this]

theorem strlen_no_zero (chars : List Nat) (h : ∀ c ∈ chars, c ≠ 0) :
    strlen chars = chars.length := by
  unfold strlen
  congr 1
  rw [List.takeWhile_eq_self_iff]
  intro c hc
  simpa using h c hc

theorem read_line_ok (d : Nat) (line rest : List Nat) (hd : d ≤ MAX_TAB_LEN)
    (hnl : NL ∉ line) (hz : ∀ c ∈ line, c ≠ 0) (hlen : line.length + 1 < MAX_LINE_LEN) :
    Reader.read_line ⟨List.replicate d TAB ++ (line ++ NL :: rest), d⟩ =
      .ok (line, ⟨rest, d⟩) := by
  have hscan := fgets_scan_line (MAX_LINE_LEN - 1) line rest hnl (by omega)
  have hstr : strlen (line ++ [NL]) = line.length + 1 := by
    rw [strlen_no_zero]
    · simp
    · intro c hc
      simp at hc
      rcases hc with hc | hc
      · exact hz c hc
      · subst hc; decide
  simp [Reader.read_line, read_indent_tabs d _ hd, fgets, hscan, hstr]

theorem memcmp_differs_self (l rest : List Nat) : memcmp_differs (l ++ rest) l = false := by
  induction l with
  | nil => cases rest <;> simp [memcmp_differs]
  | cons a t ih => simp [memcmp_differs, ih]

theorem read_label_ok (label : Option (List Nat)) (type : Nat) (value : List Nat) :
    read_label label type (label_bytes label ++ [COLON, type, SPACE] ++ value) =
      .ok value := by
  cases label with
  | none => simp [read_label, label_bytes, deref]
  | some l =>
    have h := memcmp_differs_self l (COLON :: type :: SPACE :: value)
    simp [read_label, label_bytes, deref, h]

theorem field_line_props (label : Option (List Nat)) (type : Nat) (value : List Nat)
    (hl : ValidLabel label) (ht : type ≠ NL ∧ type ≠ 0)
    (hv : ∀ c ∈ value, c ≠ NL ∧ c ≠ 0) (hlen : value.length < MAX_VALUE_LEN) :
    NL ∉ field_line label type value ∧ (∀ c ∈ field_line label type value, c ≠ 0) ∧
      (field_line label type value).length + 1 < MAX_LINE_LEN := by
  have hlab : NL ∉ label_bytes label ∧ (∀ c ∈ label_bytes label, c ≠ 0) ∧
      (label_bytes label).length ≤ MAX_LABEL_LEN := by
    cases label with
    | none => simp [label_bytes]
    | some l =>
      obtain ⟨hc, -, hlen, hnl⟩ := hl
      exact ⟨hnl, fun c hc2 => (hc c hc2).1, hlen⟩
  obtain ⟨h1, h2, h3⟩ := hlab
  refine ⟨?_, ?_, ?_⟩
  · intro hmem
    simp only [field_line, List.mem_append, List.mem_cons, List.mem_singleton,
      List.not_mem_nil, or_false] at hmem
    rcases hmem with (hmem | hmem | hmem | hmem) | hmem
    · exact h1 hmem
    · exact absurd hmem (by decide)
    · exact ht.1 hmem.symm
    · exact absurd hmem (by decide)
    · exact (hv _ hmem).1 rfl
  · intro c hmem
    simp only [field_line, List.mem_append, List.mem_cons, List.mem_singleton,
      List.not_mem_nil, or_false] at hmem
    rcases hmem with (hmem | hmem | hmem | hmem) | hmem
    · exact h2 c hmem
    · subst hmem; decide
    · subst hmem; exact ht.2
    · subst hmem; decide
    · exact (hv _ hmem).2
  · simp only [field_line, List.length_append, List.length_cons, List.length_nil]
    simp only [MAX_LINE_LEN, MAX_TAB_LEN, MAX_LABEL_LEN, MAX_VALUE_LEN] at *
    omega


/-! ## Scalar fields -/

theorem write_i32_ok (out : List Nat) (d : Nat) (label : Option (List Nat)) (v : Int)
    (hl : ValidLabel label) (hv : IsI32 v) :
    Writer.write_i32 ⟨out, d⟩ label v =
      .ok ⟨out ++ (List.replicate d TAB ++ (field_line label TAG_I (fmt_i v) ++ [NL])), d⟩ := by
  have hlen := fmt_i_length v hv
  have hnum : ∀ w : Writer, w.write_num (fmt_i v) = .ok ⟨w.file ++ fmt_i v, w.indent⟩ :=
    fun w => write_num_ok w _ (fmt_i_ne_nil v) (by simp only [MAX_VALUE_LEN]; omega)
  simp [Writer.write_i32, write_indent_ok, write_label_ok _ _ _ hl, hnum, write_newline_ok,
    field_line]

theorem fmt_i_line_chars (v : Int) : ∀ c ∈ fmt_i v, c ≠ NL ∧ c ≠ 0 := by
  intro c hc
  rcases fmt_i_chars v c hc with h | h
  · subst h; decide
  · constructor <;> simp [NL] <;> omega

/-- C1: for every int32 value v, every depth d ≤ 32 and every label that is absent or a
non-empty string of at most 32 bytes without a newline, write_i32 succeeds, and read_i32 with
the same label and depth, applied to the emitted bytes followed by any further bytes, returns
v, leaves exactly the further bytes unread and leaves the reader depth at d. -/
theorem read_i32_write_i32 (v : Int) (d : Nat) (label : Option (List Nat))
    (out further : List Nat) (hv : IsI32 v) (hd : d ≤ 32) (hl : ValidLabel label) :
    ∃ emitted, Writer.write_i32 ⟨out, d⟩ label v = .ok ⟨out ++ emitted, d⟩ ∧
      Reader.read_i32 ⟨emitted ++ further, d⟩ label = .ok (v, ⟨further, d⟩) := by
  refine ⟨_, write_i32_ok out d label v hl hv, ?_⟩
  have hlen := fmt_i_length v hv
  obtain ⟨h1, h2, h3⟩ := field_line_props label TAG_I (fmt_i v) hl (by decide)
    (fmt_i_line_chars v) (by simp only [MAX_VALUE_LEN]; omega)
  have hline := read_line_ok d (field_line label TAG_I (fmt_i v)) further hd h1 h2 h3
  have hlab : read_label label TAG_I (field_line label TAG_I (fmt_i v)) = .ok (fmt_i v) :=
    read_label_ok label TAG_I (fmt_i v)
  have hre : List.replicate d TAB ++ (field_line label TAG_I (fmt_i v) ++ [NL]) ++ further =
      List.replicate d TAB ++ (field_line label TAG_I (fmt_i v) ++ NL :: further) := by simp
  rw [hre]
  simp [Reader.read_i32, hline, hlab, strtol_fmt_i v hv, deref, long_to_i32_id v hv]

/-- Witness of C1: the value -7 under the label "x" at depth 2. -/
theorem read_i32_write_i32_witness :
    IsI32 (-7) ∧ 2 ≤ 32 ∧ ValidLabel (some [120]) ∧
    ∃ emitted, Writer.write_i32 ⟨[1], 2⟩ (some [120]) (-7) = .ok ⟨[1] ++ emitted, 2⟩ ∧
      Reader.read_i32 ⟨emitted ++ [9, 58], 2⟩ (some [120]) = .ok (-7, ⟨[9, 58], 2⟩) :=
  ⟨by decide, by decide, by decide,
    read_i32_write_i32 (-7) 2 (some [120]) [1] [9, 58] (by decide) (by decide) (by decide)⟩


/-! ## What each writer method appends -/

theorem fmt_f_ne_nil (x : F64) : fmt_f x ≠ [] := by
  cases x <;> simp [fmt_f]

theorem pad6_chars (k : Nat) : ∀ c ∈ pad6 k, 48 ≤ c ∧ c ≤ 57 := by
  intro c hc
  simp only [pad6, List.mem_cons, List.mem_singleton, List.not_mem_nil, or_false] at hc
  omega

theorem fmt_f_chars (x : F64) : ∀ c ∈ fmt_f x, c ≠ NL ∧ c ≠ 0 := by
  intro c hc
  have hsign : ∀ (neg : Bool), c ∈ (if neg then [MINUS] else []) → c ≠ NL ∧ c ≠ 0 := by
    intro neg h
    cases neg
    · simp at h
    · simp at h
      subst h
      decide
  cases x with
  | finite neg m e =>
    simp only [fmt_f, List.mem_append, List.mem_singleton] at hc
    rcases hc with ((hc | hc) | hc) | hc
    · exact hsign neg hc
    · have := (decimal_spec _).digit c hc
      constructor <;> simp [NL] <;> omega
    · subst hc
      decide
    · have := pad6_chars _ c hc
      constructor <;> simp [NL] <;> omega
  | inf neg =>
    simp only [fmt_f, List.mem_append] at hc
    rcases hc with hc | hc
    · exact hsign neg hc
    · simp at hc
      rcases hc with hc | hc | hc <;> subst hc <;> decide
  | nan neg =>
    simp only [fmt_f, List.mem_append] at hc
    rcases hc with hc | hc
    · exact hsign neg hc
    · simp at hc
      rcases hc with hc | hc | hc <;> subst hc <;> decide

theorem decimal_chars (n : Nat) : ∀ c ∈ decimal n, c ≠ NL ∧ c ≠ 0 := by
  intro c hc
  have := (decimal_spec n).digit c hc
  constructor <;> simp [NL] <;> omega

theorem decimal_length_u32 (n : Nat) (h : n < 4294967296) : (decimal n).length ≤ 10 :=
  decimal_length_le n 10 (by norm_num) (by omega)

theorem decimal_length_usize (n : Nat) (h : n < 18446744073709551616) :
    (decimal n).length ≤ 20 :=
  decimal_length_le n 20 (by norm_num) (by omega)

theorem field_text_chars (f : Field) : ∀ c ∈ f.text, c ≠ NL ∧ c ≠ 0 := by
  cases f with
  | i32 v => exact fmt_i_line_chars v
  | u32 v => exact decimal_chars v
  | f64 x => exact fmt_f_chars x
  | bin a => exact decimal_chars _
  | cstr s => exact decimal_chars _
  | arr_bgn n => exact decimal_chars n
  | obj_bgn => simp [Field.text]

theorem field_text_length (f : Field) (h : f.WF) : f.text.length < MAX_VALUE_LEN := by
  cases f with
  | i32 v =>
    have := fmt_i_length v h
    simp only [Field.text, MAX_VALUE_LEN]
    omega
  | u32 v =>
    have := decimal_length_u32 v h
    simp only [Field.text, MAX_VALUE_LEN, fmt_u]
    omega
  | f64 x => exact h
  | bin a =>
    have := decimal_length_usize a.len h.2.1
    simp only [Field.text, MAX_VALUE_LEN, fmt_zu]
    omega
  | cstr s =>
    have := decimal_length_usize s.length h.2
    simp only [Field.text, MAX_VALUE_LEN, fmt_zu]
    omega
  | arr_bgn n =>
    have := decimal_length_usize n h
    simp only [Field.text, MAX_VALUE_LEN, fmt_zu]
    omega
  | obj_bgn => simp [Field.text, MAX_VALUE_LEN]

theorem write_byte_hex_ok (w : Writer) (byte : Nat) :
    w.write_byte_hex byte = .ok ⟨w.file ++ hex_text [byte], w.indent⟩ := by
  simp [Writer.write_byte_hex, Writer.write, hex_text]

theorem hex_text_append (xs ys : List Nat) : hex_text (xs ++ ys) = hex_text xs ++ hex_text ys := by
  induction xs with
  | nil => simp [hex_text]
  | cons a t ih => simp [hex_text, ih]

theorem write_bin_loop_ok (value : Ar) (n i : Nat) (w : Writer)
    (h : i + n ≤ value.buf.length) :
    Writer.write_bin_loop value n i w =
      .ok ⟨w.file ++ hex_text ((value.buf.drop i).take n), w.indent⟩ := by
  induction n generalizing i w with
  | zero => simp [Writer.write_bin_loop, hex_text]
  | succ n ih =>
    have hi : i < value.buf.length := by omega
    have hget : value.get i = .ok (value.buf[i]) := by
      simp [Ar.get, List.getElem?_eq_getElem hi]
    have hdrop : value.buf.drop i = value.buf[i] :: value.buf.drop (i + 1) :=
      List.drop_eq_getElem_cons hi
    rw [Writer.write_bin_loop]
    simp only [hget, ok_bind, write_byte_hex_ok, ih (i + 1) _ (by omega)]
    rw [hdrop, List.take_succ_cons]
    simp only [hex_text, List.append_assoc, List.cons_append, List.nil_append]

theorem write_bin_ok (out : List Nat) (d : Nat) (label : Option (List Nat)) (value : Ar)
    (hl : ValidLabel label) (hlen : value.len ≤ value.buf.length)
    (hsz : value.len < 18446744073709551616) :
    Writer.write_bin ⟨out, d⟩ label value =
      .ok ⟨out ++ (List.replicate d TAB ++ (field_line label TAG_B (fmt_zu value.len) ++
        NL :: (List.replicate (uint32 (d + 1)) TAB ++
          (hex_text (value.buf.take value.len) ++ [NL])))),
        uint32 (uint32 (d + 1) + 4294967295)⟩ := by
  have hdl := decimal_length_usize value.len hsz
  have hnum : ∀ w : Writer, w.write_num (fmt_zu value.len ++ [NL]) =
      .ok ⟨w.file ++ (fmt_zu value.len ++ [NL]), w.indent⟩ :=
    fun w => write_num_ok w _ (by simp) (by
      simp only [List.length_append, List.length_singleton, MAX_VALUE_LEN, fmt_zu]
      omega)
  have hloop : ∀ w : Writer, Writer.write_bin_loop value value.len 0 w =
      .ok ⟨w.file ++ hex_text (value.buf.take value.len), w.indent⟩ := by
    intro w
    simpa using write_bin_loop_ok value value.len 0 w (by omega)
  simp [Writer.write_bin, write_indent_ok, write_label_ok _ _ _ hl, hnum, hloop,
    write_newline_ok, field_line]

theorem write_field_ok (out : List Nat) (d : Nat) (label : Option (List Nat)) (f : Field)
    (hl : ValidLabel label) (hf : f.WF) :
    Writer.write_field ⟨out, d⟩ label f =
      .ok ⟨out ++ (List.replicate d TAB ++ (field_line label f.tag f.text ++
        NL :: f.payload d)), f.depth_after d⟩ := by
  have htl := field_text_length f hf
  cases f with
  | i32 v =>
    simpa [Writer.write_field, Field.tag, Field.text, Field.payload, Field.depth_after]
      using write_i32_ok out d label v hl hf
  | u32 v =>
    have hnum : ∀ w : Writer, w.write_num (fmt_u v) = .ok ⟨w.file ++ fmt_u v, w.indent⟩ :=
      fun w => write_num_ok w _ (decimal_ne_nil v) htl
    simp [Writer.write_field, Writer.write_u32, write_indent_ok, write_label_ok _ _ _ hl,
      hnum, write_newline_ok, field_line, Field.tag, Field.text, Field.payload,
      Field.depth_after]
  | f64 x =>
    have hnum : ∀ w : Writer, w.write_num (fmt_f x) = .ok ⟨w.file ++ fmt_f x, w.indent⟩ :=
      fun w => write_num_ok w _ (fmt_f_ne_nil x) htl
    simp [Writer.write_field, Writer.write_f64, write_indent_ok, write_label_ok _ _ _ hl,
      hnum, write_newline_ok, field_line, Field.tag, Field.text, Field.payload,
      Field.depth_after]
  | bin a =>
    simpa [Writer.write_field, Field.tag, Field.text, Field.payload, Field.depth_after]
      using write_bin_ok out d label a hl hf.1 hf.2.1
  | cstr s =>
    have := write_bin_ok out d label ⟨s ++ [0], s.length⟩ hl (by simp) hf.2
    simpa [Writer.write_field, Writer.write_cstr, Field.tag, Field.text, Field.payload,
      Field.depth_after] using this
  | arr_bgn n =>
    have hnum : ∀ w : Writer, w.write_num (fmt_zu n) = .ok ⟨w.file ++ fmt_zu n, w.indent⟩ :=
      fun w => write_num_ok w _ (decimal_ne_nil n) htl
    simp [Writer.write_field, Writer.write_arr_bgn, write_indent_ok,
      write_label_ok _ _ _ hl, hnum, write_newline_ok, field_line, Field.tag, Field.text,
      Field.payload, Field.depth_after]
  | obj_bgn =>
    simp [Writer.write_field, Writer.write_obj_bgn, write_indent_ok,
      write_label_ok _ _ _ hl, write_newline_ok, field_line, Field.tag, Field.text,
      Field.payload, Field.depth_after]


/-! ## How every reader method starts -/

theorem read_field_line_error (env : Env) (strtod : List Nat → F64 × List Nat) (r : Reader)
    (label : Option (List Nat)) (op : ReadOp) (e : Err) (h : r.read_line = .error e) :
    r.read_field env strtod label op = .error e := by
  cases op <;>
    simp [Reader.read_field, Reader.read_i32, Reader.read_u32, Reader.read_f64,
      Reader.read_bin, Reader.read_cstr, Reader.read_arr_bgn, Reader.read_obj_bgn, h,
      Except.map, bind, Except.bind]

theorem read_field_label_error (env : Env) (strtod : List Nat → F64 × List Nat)
    (r r1 : Reader) (line : List Nat) (label : Option (List Nat)) (op : ReadOp) (e : Err)
    (h : r.read_line = .ok (line, r1)) (hlab : read_label label op.tag line = .error e) :
    r.read_field env strtod label op = .error e := by
  cases op <;>
    simp [Reader.read_field, Reader.read_i32, Reader.read_u32, Reader.read_f64,
      Reader.read_bin, Reader.read_cstr, Reader.read_arr_bgn, Reader.read_obj_bgn, h,
      Except.map, bind, Except.bind, ReadOp.tag] at hlab ⊢ <;> simp [hlab]

/-- The header line of a well-formed field is read back whole. -/
theorem read_line_field (d : Nat) (label : Option (List Nat)) (f : Field)
    (rest : List Nat) (hd : d ≤ 32) (hl : ValidLabel label) (hf : f.WF) :
    Reader.read_line ⟨List.replicate d TAB ++ (field_line label f.tag f.text ++ NL :: rest), d⟩
      = .ok (field_line label f.tag f.text, ⟨rest, d⟩) := by
  have ht : f.tag ≠ NL ∧ f.tag ≠ 0 := by
    cases f <;> simp only [Field.tag] <;> decide
  obtain ⟨h1, h2, h3⟩ := field_line_props label f.tag f.text hl ht (field_text_chars f)
    (field_text_length f hf)
  exact read_line_ok d _ rest hd h1 h2 h3

theorem read_label_type_mismatch (label : Option (List Nat)) (t1 t2 : Nat)
    (value : List Nat) (h : t1 ≠ t2) :
    read_label label t2 (field_line label t1 value) = .error .type_mismatch := by
  cases label with
  | none => simp [read_label, field_line, label_bytes, deref, h]
  | some l =>
    have hm := memcmp_differs_self l (COLON :: t1 :: SPACE :: value)
    simp [read_label, field_line, label_bytes, deref, hm, h]


/-! ## Claims on scalar fields, type tags and array headers -/

/-- C2 (the code departs from it): at depth 0, write_u32 with label "x" and value 7 emits
"x:u 7\n", and read_u32 with label "x" on these bytes consumes them and returns 0, not 7. -/
theorem read_u32_write_u32_returns_zero :
    Writer.write_u32 ⟨[], 0⟩ (some [120]) 7 = .ok ⟨[120, 58, 117, 32, 55, 10], 0⟩ ∧
    Reader.read_u32 ⟨[120, 58, 117, 32, 55, 10], 0⟩ (some [120]) = .ok (0, ⟨[], 0⟩) := by
  decide

/-- Whatever read_u32 reads, the value it returns is 0. -/
theorem read_u32_value_zero (r r1 : Reader) (label : Option (List Nat)) (v : Nat)
    (h : r.read_u32 label = .ok (v, r1)) : v = 0 := by
  unfold Reader.read_u32 at h
  cases h1 : r.read_line with
  | error e => simp [h1] at h
  | ok p =>
    obtain ⟨line, r2⟩ := p
    simp only [h1, ok_bind] at h
    cases h2 : read_label label TAG_U line with
    | error e => simp [h2] at h
    | ok value_ptr =>
      simp only [h2, ok_bind] at h
      split at h
      · simp at h
      · simp only [Except.ok.injEq, Prod.mk.injEq] at h
        exact h.1.symm

/-- C7, amended with the depth bound of the indent buffer: for every well-formed field, every
valid label, every depth d ≤ 32 and every reader method whose type tag differs from the one
written, the writer method succeeds and the reader method, called with the same label at the
same depth on the emitted bytes (followed by any further bytes), fails with the type-mismatch
panic. -/
theorem read_field_type_mismatch (env : Env) (strtod : List Nat → F64 × List Nat)
    (f : Field) (op : ReadOp) (label : Option (List Nat)) (d : Nat) (out further : List Nat)
    (hf : f.WF) (hl : ValidLabel label) (hd : d ≤ 32) (ht : f.tag ≠ op.tag) :
    ∃ emitted, Writer.write_field ⟨out, d⟩ label f = .ok ⟨out ++ emitted, f.depth_after d⟩ ∧
      Reader.read_field env strtod ⟨emitted ++ further, d⟩ label op =
        .error .type_mismatch := by
  refine ⟨_, write_field_ok out d label f hl hf, ?_⟩
  have hline := read_line_field d label f (f.payload d ++ further) hd hl hf
  have hre : List.replicate d TAB ++ (field_line label f.tag f.text ++ NL :: f.payload d) ++
      further = List.replicate d TAB ++
        (field_line label f.tag f.text ++ NL :: (f.payload d ++ further)) := by simp
  rw [hre]
  exact read_field_label_error env strtod _ _ _ label op _ hline
    (read_label_type_mismatch label f.tag op.tag f.text ht)

/-- Witness of C7: a uint32 field 7 labelled "x" at depth 1, read back as int32. -/
theorem read_field_type_mismatch_witness :
    (Field.u32 7).WF ∧ ValidLabel (some [120]) ∧ 1 ≤ 32 ∧ (Field.u32 7).tag ≠ ReadOp.i32.tag ∧
    ∃ emitted, Writer.write_field ⟨[], 1⟩ (some [120]) (.u32 7) =
        .ok ⟨[] ++ emitted, (Field.u32 7).depth_after 1⟩ ∧
      Reader.read_field Env.strict strtod_none ⟨emitted ++ [9], 1⟩ (some [120]) .i32 =
        .error .type_mismatch :=
  ⟨by decide, by decide, by decide, by decide,
    read_field_type_mismatch Env.strict strtod_none (.u32 7) .i32 (some [120]) 1 [] [9]
      (by decide) (by decide) (by decide) (by decide)⟩

/-- C7 as stated fails beyond depth 32: at depth 33 a uint32 field read back as int32 makes
read_indent store 33 characters in its 32-character buffer; the outcome is not the
type-mismatch panic. -/
theorem read_field_type_mismatch_counterexample :
    Writer.write_field ⟨[], 33⟩ none (.u32 7) =
      .ok ⟨List.replicate 33 TAB ++ [58, 117, 32, 55, 10], 33⟩ ∧
    Reader.read_field Env.strict strtod_none
      ⟨List.replicate 33 TAB ++ [58, 117, 32, 55, 10], 33⟩ none .i32 = .error .out_of_bounds ∧
    Reader.read_field Env.strict strtod_none
      ⟨List.replicate 33 TAB ++ [58, 117, 32, 55, 10], 33⟩ none .i32 ≠
        .error .type_mismatch := by
  decide


theorem strtol_fmt_zu (n : Nat) :
    strtol (fmt_zu n) = (min (n : Int) LONG_MAX, []) := by
  have := strtol_decimal (decimal n) [] n (decimal_spec n) (by decide)
  simpa [fmt_zu] using this

theorem uint32_succ (d : Nat) (h : d ≤ 32) : uint32 (d + 1) = d + 1 := by
  unfold uint32
  omega

theorem uint32_pred (d : Nat) (h : d ≤ 32) : uint32 (d + 1 + 4294967295) = d := by
  unfold uint32
  omega

/-- C8, amended with the range of `long` and the depth bound of the indent buffer: for
every element count n ≤ 2^63 - 1, every valid label and every depth d ≤ 32, write_arr_bgn
succeeds and leaves the writer at depth d + 1; read_arr_bgn with the same label at depth d
on the emitted header line (followed by any further bytes) returns n and leaves the reader
at depth d + 1 with the further bytes unread; write_arr_end and read_arr_end then restore
depth d and leave the sink and the source as they are. -/
theorem read_arr_bgn_write_arr_bgn (n d : Nat) (label : Option (List Nat))
    (out further : List Nat) (hn : n ≤ 9223372036854775807) (hd : d ≤ 32)
    (hl : ValidLabel label) :
    ∃ emitted, Writer.write_arr_bgn ⟨out, d⟩ label n = .ok ⟨out ++ emitted, d + 1⟩ ∧
      Reader.read_arr_bgn ⟨emitted ++ further, d⟩ label = .ok (n, ⟨further, d + 1⟩) ∧
      Writer.write_arr_end ⟨out ++ emitted, d + 1⟩ = ⟨out ++ emitted, d⟩ ∧
      Reader.read_arr_end ⟨further, d + 1⟩ = ⟨further, d⟩ := by
  have hf : (Field.arr_bgn n).WF := by
    show n < 18446744073709551616
    omega
  have hw := write_field_ok out d label (.arr_bgn n) hl hf
  simp only [Writer.write_field, Field.tag, Field.text, Field.payload, Field.depth_after,
    uint32_succ d hd] at hw
  refine ⟨_, hw, ?_, ?_, ?_⟩
  · have hline := read_line_field d label (.arr_bgn n) further hd hl hf
    simp only [Field.tag, Field.text] at hline
    have hlab : read_label label TAG_A (field_line label TAG_A (fmt_zu n)) = .ok (fmt_zu n) :=
      read_label_ok label TAG_A (fmt_zu n)
    have hre : List.replicate d TAB ++ (field_line label TAG_A (fmt_zu n) ++ [NL]) ++ further
        = List.replicate d TAB ++ (field_line label TAG_A (fmt_zu n) ++ NL :: further) := by
      simp
    rw [hre]
    have hmin : min (n : Int) LONG_MAX = n := by
      simp only [LONG_MAX]
      omega
    have hconv : long_to_usize (n : Int) = n := by
      unfold long_to_usize
      omega
    simp [Reader.read_arr_bgn, hline, hlab, strtol_fmt_zu, deref, hmin, hconv,
      uint32_succ d hd]
  · simp [Writer.write_arr_end, uint32_pred d hd]
  · simp [Reader.read_arr_end, uint32_pred d hd]

/-- Witness of C8: a header for 3 elements labelled "a" at depth 0. -/
theorem read_arr_bgn_write_arr_bgn_witness :
    3 ≤ 9223372036854775807 ∧ 0 ≤ 32 ∧ ValidLabel (some [97]) ∧
    ∃ emitted, Writer.write_arr_bgn ⟨[], 0⟩ (some [97]) 3 = .ok ⟨[] ++ emitted, 0 + 1⟩ ∧
      Reader.read_arr_bgn ⟨emitted ++ [9, 58], 0⟩ (some [97]) = .ok (3, ⟨[9, 58], 0 + 1⟩) ∧
      Writer.write_arr_end ⟨[] ++ emitted, 0 + 1⟩ = ⟨[] ++ emitted, 0⟩ ∧
      Reader.read_arr_end ⟨[9, 58], 0 + 1⟩ = ⟨[9, 58], 0⟩ :=
  ⟨by decide, by decide, by decide,
    read_arr_bgn_write_arr_bgn 3 0 (some [97]) [] [9, 58] (by decide) (by decide) (by decide)⟩

/-- C8 as stated fails for counts above the range of `long` and beyond depth 32: the count
2^63 written at depth 0 is read back as 2^63 - 1, and at depth 33 read_arr_bgn stores 33
characters in the 32-character indent buffer. -/
theorem read_arr_bgn_write_arr_bgn_counterexample :
    (Writer.write_arr_bgn ⟨[], 0⟩ none 9223372036854775808 =
        .ok ⟨[58, 97, 32] ++ decimal 9223372036854775808 ++ [10], 1⟩ ∧
      Reader.read_arr_bgn ⟨[58, 97, 32] ++ decimal 9223372036854775808 ++ [10], 0⟩ none =
        .ok (9223372036854775807, ⟨[], 1⟩)) ∧
    (Writer.write_arr_bgn ⟨[], 33⟩ none 3 =
        .ok ⟨List.replicate 33 TAB ++ [58, 97, 32, 51, 10], 34⟩ ∧
      Reader.read_arr_bgn ⟨List.replicate 33 TAB ++ [58, 97, 32, 51, 10], 33⟩ none =
        .error .out_of_bounds) := by
  decide

/-! ## Indent validation -/

theorem read_indent_mismatch (d k : Nat) (tail : List Nat) (hd : d ≤ 32) (hk : k < d)
    (hlen : d ≤ (List.replicate k TAB ++ tail).length) (hc : tail.head? ≠ some TAB) :
    Reader.read_indent ⟨List.replicate k TAB ++ tail, d⟩ = .error .expected_indent := by
  have h0 : d ≠ 0 := by omega
  have hl : ((List.replicate k TAB ++ tail).take d).length = d := by
    simp only [List.length_take]
    omega
  cases tail with
  | nil => simp at hlen; omega
  | cons c rest =>
    have hcne : c ≠ TAB := by simpa using hc
    have hmem : c ∈ (List.replicate k TAB ++ c :: rest).take d := by
      rw [List.take_append_eq_append_take]
      simp only [List.length_replicate]
      have : d - k = (d - k - 1) + 1 := by omega
      rw [this, List.take_succ_cons]
      simp
    have hany : ((List.replicate k TAB ++ c :: rest).take d).any (fun c => decide (c ≠ TAB))
        = true := by
      rw [List.any_eq_true]
      exact ⟨c, hmem, by simpa using hcne⟩
    have hnot : ¬ (d > MAX_TAB_LEN) := by simp only [MAX_TAB_LEN]; omega
    simp only [Reader.read_indent, h0, if_false, hl, hnot, Reader.read, false_or,
      lt_self_iff_false, ok_bind, hany, if_true]

/-- C9, amended to fewer tabs than the depth, a source long enough for the indent and the
depth bound of the indent buffer: for every reader depth d ≤ 32 and every source of at
least d bytes whose next line starts with exactly k < d tab characters, every reader method
fails with the expected-indent panic. -/
theorem read_field_indent_mismatch (env : Env) (strtod : List Nat → F64 × List Nat)
    (d k : Nat) (tail : List Nat) (label : Option (List Nat)) (op : ReadOp)
    (hd : d ≤ 32) (hk : k < d) (hlen : d ≤ (List.replicate k TAB ++ tail).length)
    (hc : tail.head? ≠ some TAB) :
    Reader.read_field env strtod ⟨List.replicate k TAB ++ tail, d⟩ label op =
      .error .expected_indent := by
  apply read_field_line_error
  simp [Reader.read_line, read_indent_mismatch d k tail hd hk hlen hc]

/-- Witness of C9: the line ":i 5" with one tab, read at depth 2. -/
theorem read_field_indent_mismatch_witness :
    2 ≤ 32 ∧ 1 < 2 ∧ 2 ≤ (List.replicate 1 TAB ++ [58, 105, 32, 53, 10]).length ∧
    List.head? [58, 105, 32, 53, 10] ≠ some TAB ∧
    Reader.read_field Env.strict strtod_none ⟨List.replicate 1 TAB ++ [58, 105, 32, 53, 10], 2⟩
      none .i32 = .error .expected_indent :=
  ⟨by decide, by decide, by decide, by decide,
    read_field_indent_mismatch Env.strict strtod_none 2 1 [58, 105, 32, 53, 10] none .i32
      (by decide) (by decide) (by decide) (by decide)⟩

/-- C9 as stated fails in three ways. More tabs than the depth: the line "\t:i 5" read at
depth 0 fails with the expected-colon panic, and the line "\tx:i 5" read at depth 0 with
the label "\tx" is accepted. A source shorter than the depth: "\t:i 5\n" read at depth 10
fails with the fread panic. A depth above 32: the indent buffer is overrun. -/
theorem read_field_indent_mismatch_counterexample :
    Reader.read_i32 ⟨[9, 58, 105, 32, 53, 10], 0⟩ none = .error .expected_colon ∧
    Reader.read_i32 ⟨[9, 120, 58, 105, 32, 53, 10], 0⟩ (some [9, 120]) = .ok (5, ⟨[], 0⟩) ∧
    Reader.read_i32 ⟨[9, 58, 105, 32, 53, 10], 10⟩ none = .error .fread_failed ∧
    Reader.read_i32 ⟨List.replicate 32 TAB ++ [58, 105, 32, 53, 10], 33⟩ none =
      .error .out_of_bounds := by
  decide


/-! ## The label length check -/

theorem bind_ne_error {α β : Type} (x : Except Err α) (f : α → Except Err β) (e : Err)
    (hx : x ≠ .error e) (hf : ∀ a, f a ≠ .error e) : (x >>= f) ≠ .error e := by
  cases x with
  | error e1 =>
    intro h
    apply hx
    simpa using h
  | ok a => simpa using hf a

theorem write_ne_label_too_long (w : Writer) (src : List Nat) (count : Nat) :
    w.write src count ≠ .error .label_too_long := by
  unfold Writer.write
  simp only []
  split <;> simp

theorem write_num_ne_label_too_long (w : Writer) (text : List Nat) :
    w.write_num text ≠ .error .label_too_long := by
  unfold Writer.write_num
  split
  · simp
  · exact write_ne_label_too_long _ _ _

theorem write_bin_loop_ne_label_too_long (value : Ar) (n i : Nat) (w : Writer) :
    Writer.write_bin_loop value n i w ≠ .error .label_too_long := by
  induction n generalizing i w with
  | zero => simp [Writer.write_bin_loop]
  | succ n ih =>
    rw [Writer.write_bin_loop]
    apply bind_ne_error
    · unfold Ar.get
      split <;> simp
    · intro byte
      apply bind_ne_error
      · rw [write_byte_hex_ok]
        simp
      · intro w1
        exact ih _ _

theorem write_label_short (w : Writer) (l : List Nat) (type : Nat)
    (h : ¬ l.length > 32) : w.write_label (some l) type ≠ .error .label_too_long := by
  unfold Writer.write_label
  have h1 : ¬ l.length > MAX_LABEL_LEN := h
  simp only [h1, if_false]
  apply bind_ne_error
  · exact write_ne_label_too_long _ _ _
  · intro w1
    apply bind_ne_error
    · exact write_ne_label_too_long _ _ _
    · intro w2
      apply bind_ne_error
      · exact write_ne_label_too_long _ _ _
      · intro w3
        exact write_ne_label_too_long _ _ _

theorem write_label_long (w : Writer) (l : List Nat) (type : Nat) (h : l.length > 32) :
    w.write_label (some l) type = .error .label_too_long := by
  have h1 : l.length > MAX_LABEL_LEN := h
  simp [Writer.write_label, h1]

theorem write_bin_short (w : Writer) (l : List Nat) (value : Ar) (h : ¬ l.length > 32) :
    w.write_bin (some l) value ≠ .error .label_too_long := by
  unfold Writer.write_bin
  rw [write_indent_ok]
  simp only [ok_bind]
  apply bind_ne_error
  · exact write_label_short _ l _ h
  · intro w1
    apply bind_ne_error
    · exact write_num_ne_label_too_long _ _
    · intro w2
      rw [write_indent_ok]
      simp only [ok_bind]
      apply bind_ne_error
      · exact write_bin_loop_ne_label_too_long _ _ _ _
      · intro w3
        exact write_ne_label_too_long _ _ _

/-- C10: for every writer method that takes a label, every argument, every writer state
and every non-null label, the method ends with the label-too-long panic if and only if the
label is longer than 32 bytes. -/
theorem write_field_label_too_long_iff (w : Writer) (l : List Nat) (f : Field) :
    w.write_field (some l) f = .error .label_too_long ↔ l.length > 32 := by
  constructor
  · intro hfail
    by_contra h
    revert hfail
    cases f with
    | i32 v =>
      simp only [Writer.write_field, Writer.write_i32, write_indent_ok, ok_bind]
      apply bind_ne_error
      · exact write_label_short _ l _ h
      · intro w1
        apply bind_ne_error
        · exact write_num_ne_label_too_long _ _
        · intro w2
          exact write_ne_label_too_long _ _ _
    | u32 v =>
      simp only [Writer.write_field, Writer.write_u32, write_indent_ok, ok_bind]
      apply bind_ne_error
      · exact write_label_short _ l _ h
      · intro w1
        apply bind_ne_error
        · exact write_num_ne_label_too_long _ _
        · intro w2
          exact write_ne_label_too_long _ _ _
    | f64 x =>
      simp only [Writer.write_field, Writer.write_f64, write_indent_ok, ok_bind]
      apply bind_ne_error
      · exact write_label_short _ l _ h
      · intro w1
        apply bind_ne_error
        · exact write_num_ne_label_too_long _ _
        · intro w2
          exact write_ne_label_too_long _ _ _
    | bin a => exact write_bin_short w l a h
    | cstr s => exact write_bin_short w l _ h
    | arr_bgn n =>
      simp only [Writer.write_field, Writer.write_arr_bgn, write_indent_ok, ok_bind]
      apply bind_ne_error
      · exact write_label_short _ l _ h
      · intro w1
        apply bind_ne_error
        · exact write_num_ne_label_too_long _ _
        · intro w2
          apply bind_ne_error
          · exact write_ne_label_too_long _ _ _
          · intro w3
            simp
    | obj_bgn =>
      simp only [Writer.write_field, Writer.write_obj_bgn, write_indent_ok, ok_bind]
      apply bind_ne_error
      · exact write_label_short _ l _ h
      · intro w1
        apply bind_ne_error
        · exact write_ne_label_too_long _ _ _
        · intro w2
          simp
  · intro h
    cases f <;>
      simp [Writer.write_field, Writer.write_i32, Writer.write_u32, Writer.write_f64,
        Writer.write_bin, Writer.write_cstr, Writer.write_arr_bgn, Writer.write_obj_bgn,
        write_indent_ok, write_label_long _ l _ h]


/-- Witness of C10: under a 33-byte label write_i32 ends with the label-too-long panic,
under a 32-byte label it does not. -/
theorem write_field_label_too_long_iff_witness :
    Writer.write_field ⟨[], 0⟩ (some (List.replicate 33 120)) (.i32 1) =
      .error .label_too_long ∧
    Writer.write_field ⟨[], 0⟩ (some (List.replicate 32 120)) (.i32 1) ≠
      .error .label_too_long :=
  ⟨(write_field_label_too_long_iff ⟨[], 0⟩ (List.replicate 33 120) (.i32 1)).mpr (by decide),
    fun h => absurd
      ((write_field_label_too_long_iff ⟨[], 0⟩ (List.replicate 32 120) (.i32 1)).mp h)
      (by decide)⟩

/-! ## The label check -/

theorem memcmp_differs_of_head (y z rest : List Nat) :
    memcmp_differs (y ++ z ++ rest) y = false := by
  rw [List.append_assoc]
  exact memcmp_differs_self y (z ++ rest)

theorem head_of_memcmp (x y rest : List Nat) (hy : COLON ∉ y)
    (h : memcmp_differs (x ++ COLON :: rest) y = false) : y <+: x := by
  induction y generalizing x with
  | nil => exact List.nil_prefix
  | cons b y ih =>
    cases x with
    | nil =>
      have hb : COLON ≠ b := fun hcb => hy (by simp [hcb])
      simp [memcmp_differs, hb] at h
    | cons a x =>
      simp only [List.cons_append, memcmp_differs] at h
      by_cases hab : a = b
      · subst hab
        simp only [if_true] at h
        have := ih x (fun hm => hy (by simp [hm])) h
        exact (List.cons_prefix_cons).mpr ⟨rfl, this⟩
      · simp [hab] at h

theorem read_label_wrong (x y : List Nat) (type expected : Nat) (value : List Nat)
    (hx : COLON ∉ x) (hy : COLON ∉ y) (hne : x ≠ y) :
    (y <+: x → read_label (some y) expected (field_line (some x) type value) =
      .error .expected_colon) ∧
    (¬ y <+: x → read_label (some y) expected (field_line (some x) type value) =
      .error .label_mismatch) := by
  constructor
  · rintro ⟨z, rfl⟩
    have hz : z ≠ [] := by
      intro hz
      apply hne
      simp [hz]
    obtain ⟨c, t, rfl⟩ := List.exists_cons_of_ne_nil hz
    have hc : c ≠ COLON := fun hcc => hx (by simp [hcc])
    have hm : memcmp_differs (y ++ (c :: t) ++ COLON :: type :: SPACE :: value) y = false :=
      memcmp_differs_of_head y (c :: t) _
    have hm2 : memcmp_differs (y ++ c :: (t ++ COLON :: type :: SPACE :: value)) y = false := by
      simpa using hm
    simp [read_label, field_line, label_bytes, hm2, deref, hc]
  · intro hnp
    have hm : memcmp_differs (x ++ COLON :: type :: SPACE :: value) y = true := by
      cases hcase : memcmp_differs (x ++ COLON :: type :: SPACE :: value) y with
      | true => rfl
      | false => exact absurd (head_of_memcmp x y _ hy hcase) hnp
    simp [read_label, field_line, label_bytes, hm]


theorem read_field_same_label_ok (env : Env) (strtod : List Nat → F64 × List Nat)
    (label : Option (List Nat)) (f : Field) (d : Nat) (rest : List Nat)
    (hl : ValidLabel label) (hf : f.WF) (hd : d ≤ 32)
    (hk : f.tag = TAG_I ∨ f.tag = TAG_U ∨ f.tag = TAG_A ∨ f.tag = TAG_O) :
    ∃ res, Reader.read_field env strtod
      ⟨List.replicate d TAB ++ (field_line label f.tag f.text ++ NL :: rest), d⟩ label f.op
        = .ok res := by
  have hline := read_line_field d label f rest hd hl hf
  have hlab : read_label label f.tag (field_line label f.tag f.text) = .ok f.text :=
    read_label_ok label f.tag f.text
  cases f with
  | i32 v =>
    simp only [Field.tag, Field.text] at hline hlab ⊢
    simp [Reader.read_field, Reader.read_i32, Field.op, hline, hlab, strtol_fmt_i v hf,
      deref, Except.map]
  | u32 v =>
    simp only [Field.tag, Field.text] at hline hlab ⊢
    have hs : strtol (fmt_u v) = (min (v : Int) LONG_MAX, []) := strtol_fmt_zu v
    have hnn : ¬ (min (v : Int) LONG_MAX < 0) := by
      simp only [LONG_MAX]
      omega
    simp [Reader.read_field, Reader.read_u32, Field.op, hline, hlab, hs, deref, Except.map,
      hnn]
  | f64 x => simp [Field.tag, TAG_F, TAG_I, TAG_U, TAG_A, TAG_O] at hk
  | bin a => simp [Field.tag, TAG_B, TAG_I, TAG_U, TAG_A, TAG_O] at hk
  | cstr s => simp [Field.tag, TAG_B, TAG_I, TAG_U, TAG_A, TAG_O] at hk
  | arr_bgn n =>
    simp only [Field.tag, Field.text] at hline hlab ⊢
    simp [Reader.read_field, Reader.read_arr_bgn, Field.op, hline, hlab, strtol_fmt_zu,
      deref, Except.map]
  | obj_bgn =>
    simp only [Field.tag, Field.text] at hline hlab ⊢
    simp [Reader.read_field, Reader.read_obj_bgn, Field.op, hline, hlab, Except.map]

/-- C6, amended in the panic raised, in the labels and kinds covered and with the depth
bound of the indent buffer: for every valid label x without colon, every label y without
colon other than x, every well-formed field and every depth d ≤ 32, the writer method with
label x succeeds; on the emitted bytes every reader method with
expected label y fails, with the label-mismatch panic when y is not a leading part of x
and with the expected-colon panic when it is; and for an int32, uint32, array-header or
object-header field the mirroring reader method with expected label x succeeds. -/
theorem read_field_wrong_label (env : Env) (strtod : List Nat → F64 × List Nat)
    (x y : List Nat) (f : Field) (op : ReadOp) (d : Nat) (out further : List Nat)
    (hx : ValidLabel (some x)) (hxc : COLON ∉ x) (hyc : COLON ∉ y) (hne : x ≠ y)
    (hf : f.WF) (hd : d ≤ 32) :
    ∃ emitted, Writer.write_field ⟨out, d⟩ (some x) f = .ok ⟨out ++ emitted, f.depth_after d⟩ ∧
      (¬ y <+: x → Reader.read_field env strtod ⟨emitted ++ further, d⟩ (some y) op =
        .error .label_mismatch) ∧
      (y <+: x → Reader.read_field env strtod ⟨emitted ++ further, d⟩ (some y) op =
        .error .expected_colon) ∧
      (f.tag = TAG_I ∨ f.tag = TAG_U ∨ f.tag = TAG_A ∨ f.tag = TAG_O →
        ∃ res, Reader.read_field env strtod ⟨emitted ++ further, d⟩ (some x) f.op =
          .ok res) := by
  refine ⟨_, write_field_ok out d (some x) f hx hf, ?_⟩
  have hline := read_line_field d (some x) f (f.payload d ++ further) hd hx hf
  have hre : List.replicate d TAB ++ (field_line (some x) f.tag f.text ++ NL :: f.payload d)
      ++ further = List.replicate d TAB ++
        (field_line (some x) f.tag f.text ++ NL :: (f.payload d ++ further)) := by simp
  rw [hre]
  obtain ⟨h1, h2⟩ := read_label_wrong x y f.tag op.tag f.text hxc hyc hne
  refine ⟨?_, ?_, ?_⟩
  · intro hnp
    exact read_field_label_error env strtod _ _ _ (some y) op _ hline (h2 hnp)
  · intro hp
    exact read_field_label_error env strtod _ _ _ (some y) op _ hline (h1 hp)
  · intro hk
    exact read_field_same_label_ok env strtod (some x) f d _ hx hf hd hk

/-- Witness of C6: an int32 field 5 written with label "ab" at depth 1, read with "b". -/
theorem read_field_wrong_label_witness :
    ValidLabel (some [97, 98]) ∧ COLON ∉ [97, 98] ∧ COLON ∉ [98] ∧
    [97, 98] ≠ [98] ∧ (Field.i32 5).WF ∧ 1 ≤ 32 ∧
    ∃ emitted, Writer.write_field ⟨[], 1⟩ (some [97, 98]) (.i32 5) =
        .ok ⟨[] ++ emitted, (Field.i32 5).depth_after 1⟩ ∧
      (¬ [98] <+: [97, 98] → Reader.read_field Env.strict strtod_none ⟨emitted ++ [], 1⟩
        (some [98]) .i32 = .error .label_mismatch) ∧
      ([98] <+: [97, 98] → Reader.read_field Env.strict strtod_none ⟨emitted ++ [], 1⟩
        (some [98]) .i32 = .error .expected_colon) ∧
      ((Field.i32 5).tag = TAG_I ∨ (Field.i32 5).tag = TAG_U ∨ (Field.i32 5).tag = TAG_A ∨
          (Field.i32 5).tag = TAG_O →
        ∃ res, Reader.read_field Env.strict strtod_none ⟨emitted ++ [], 1⟩ (some [97, 98])
          (Field.i32 5).op = .ok res) :=
  ⟨by decide, by decide, by decide, by decide, by decide, by decide,
    read_field_wrong_label Env.strict strtod_none [97, 98] [98] (.i32 5) .i32 1 [] []
      (by decide) (by decide) (by decide) (by decide) (by decide) (by decide)⟩

/-- C6 as stated fails. An int32 field written with label "ab" and read with expected
label "a" fails with the expected-colon panic, not with the label-mismatch panic. An object
header written with label "a:o " is accepted by read_obj_bgn with expected label "a". At
depth 33 the read with a wrong label overruns the indent buffer. -/
theorem read_field_wrong_label_counterexample :
    (Writer.write_i32 ⟨[], 0⟩ (some [97, 98]) 5 = .ok ⟨[97, 98, 58, 105, 32, 53, 10], 0⟩ ∧
      Reader.read_i32 ⟨[97, 98, 58, 105, 32, 53, 10], 0⟩ (some [97]) =
        .error .expected_colon ∧
      Reader.read_i32 ⟨[97, 98, 58, 105, 32, 53, 10], 0⟩ (some [97]) ≠
        .error .label_mismatch) ∧
    (Writer.write_obj_bgn ⟨[], 0⟩ (some [97, 58, 111, 32]) =
        .ok ⟨[97, 58, 111, 32, 58, 111, 32, 10], 1⟩ ∧
      Reader.read_obj_bgn ⟨[97, 58, 111, 32, 58, 111, 32, 10], 0⟩ (some [97]) =
        .ok ⟨[], 1⟩) ∧
    (Writer.write_i32 ⟨[], 33⟩ (some [120]) 5 =
        .ok ⟨List.replicate 33 TAB ++ [120, 58, 105, 32, 53, 10], 33⟩ ∧
      Reader.read_i32 ⟨List.replicate 33 TAB ++ [120, 58, 105, 32, 53, 10], 33⟩ (some [121]) =
        .error .out_of_bounds) := by
  decide

/-! ## The wire form of a binary field -/

theorem half_byte_to_hex_char_eq (h : Nat) (hh : h < 16) :
    half_byte_to_hex_char h = hex_digit h := by
  interval_cases h <;> rfl

theorem hex_digit_mem (h : Nat) (hh : h < 16) : hex_digit h ∈ lowercase_hex := by
  interval_cases h <;> decide

theorem hex_text_length (bs : List Nat) : (hex_text bs).length = 2 * bs.length := by
  induction bs with
  | nil => rfl
  | cons b bs ih =>
    simp only [hex_text, List.length_cons, ih]
    omega

theorem hex_text_mem (bs : List Nat) (hb : IsBytes bs) : ∀ c ∈ hex_text bs, c ∈ lowercase_hex := by
  induction bs with
  | nil => simp [hex_text]
  | cons b bs ih =>
    intro c hc
    have hb256 : b < 256 := hb b (by simp)
    simp only [hex_text, List.mem_cons] at hc
    rcases hc with hc | hc | hc
    · rw [hc, half_byte_to_hex_char_eq _ (Nat.mod_lt _ (by norm_num))]
      exact hex_digit_mem _ (Nat.mod_lt _ (by norm_num))
    · rw [hc, half_byte_to_hex_char_eq _ (Nat.mod_lt _ (by norm_num))]
      exact hex_digit_mem _ (Nat.mod_lt _ (by norm_num))
    · exact ih (fun x hx => hb x (by simp [hx])) c hc

theorem hex_text_get (bs : List Nat) (hb : IsBytes bs) (i : Nat) (hi : i < bs.length) :
    (hex_text bs)[2 * i]? = some (hex_digit (bs[i] / 16)) ∧
      (hex_text bs)[2 * i + 1]? = some (hex_digit (bs[i] % 16)) := by
  induction bs generalizing i with
  | nil => simp at hi
  | cons b bs ih =>
    have hb256 : b < 256 := hb b (by simp)
    cases i with
    | zero =>
      have h1 : b / 16 % 16 = b / 16 := Nat.mod_eq_of_lt (by omega)
      simp only [hex_text, Nat.mul_zero, List.getElem?_cons_zero, List.getElem_cons_zero,
        Nat.zero_add, List.getElem?_cons_succ, h1]
      exact ⟨by rw [half_byte_to_hex_char_eq _ (by omega)],
        by rw [half_byte_to_hex_char_eq _ (Nat.mod_lt _ (by norm_num))]⟩
    | succ i =>
      have hi2 : i < bs.length := by simpa using hi
      have := ih (fun x hx => hb x (by simp [hx])) i hi2
      have e1 : 2 * (i + 1) = (2 * i + 1) + 1 := by ring
      have e2 : 2 * (i + 1) + 1 = (2 * i + 1 + 1) + 1 := by ring
      simp only [hex_text, e1, e2, List.getElem?_cons_succ, List.getElem_cons_succ]
      exact this

/-- C5, amended to depths below 2^32 - 1 (where indent + 1 does not wrap): for every byte
sequence bs, valid label L and writer depth d < 2^32 - 1, write_bin appends exactly d tabs,
L, ":b ", the canonical decimal text of |bs|, a newline, d + 1 tabs, 2 * |bs| characters and
a newline; each of these characters is one of 0-9a-f, characters 2i and 2i + 1 are the hex
digits of the high and the low half of byte i; and the writer depth is d again. -/
theorem write_bin_wire (bs : List Nat) (label : Option (List Nat)) (d : Nat)
    (out : List Nat) (hb : IsBytes bs) (hsz : bs.length < 18446744073709551616)
    (hl : ValidLabel label) (hd : d < 4294967295) :
    ∃ dec hex, Writer.write_bin ⟨out, d⟩ label ⟨bs, bs.length⟩ =
        .ok ⟨out ++ (List.replicate d TAB ++ label_bytes label ++ [COLON, TAG_B, SPACE] ++
          dec ++ [NL] ++ List.replicate (d + 1) TAB ++ hex ++ [NL]), d⟩ ∧
      IsDecimalOf dec bs.length ∧ hex.length = 2 * bs.length ∧
      (∀ c ∈ hex, c ∈ lowercase_hex) ∧
      ∀ i (hi : i < bs.length), hex[2 * i]? = some (hex_digit (bs[i] / 16)) ∧
        hex[2 * i + 1]? = some (hex_digit (bs[i] % 16)) := by
  refine ⟨decimal bs.length, hex_text bs, ?_, decimal_spec _, hex_text_length bs,
    hex_text_mem bs hb, hex_text_get bs hb⟩
  have h := write_bin_ok out d label ⟨bs, bs.length⟩ hl (le_refl _) hsz
  have h1 : uint32 (d + 1) = d + 1 := by unfold uint32; omega
  have h2 : uint32 (d + 1 + 4294967295) = d := by unfold uint32; omega
  rw [h, h1, h2]
  simp [field_line, fmt_zu]

/-- Witness of C5: the bytes ff 01 0a under the label "x" at depth 1. -/
theorem write_bin_wire_witness :
    IsBytes [255, 1, 10] ∧ [255, 1, 10].length < 18446744073709551616 ∧
    ValidLabel (some [120]) ∧ 1 < 4294967295 ∧
    ∃ dec hex, Writer.write_bin ⟨[], 1⟩ (some [120]) ⟨[255, 1, 10], [255, 1, 10].length⟩ =
        .ok ⟨[] ++ (List.replicate 1 TAB ++ label_bytes (some [120]) ++ [COLON, TAG_B, SPACE] ++
          dec ++ [NL] ++ List.replicate (1 + 1) TAB ++ hex ++ [NL]), 1⟩ ∧
      IsDecimalOf dec [255, 1, 10].length ∧ hex.length = 2 * [255, 1, 10].length ∧
      (∀ c ∈ hex, c ∈ lowercase_hex) ∧
      ∀ i (hi : i < [255, 1, 10].length), hex[2 * i]? = some (hex_digit ([255, 1, 10][i] / 16)) ∧
        hex[2 * i + 1]? = some (hex_digit ([255, 1, 10][i] % 16)) :=
  ⟨by decide, by decide, by decide, by decide,
    write_bin_wire [255, 1, 10] (some [120]) 1 [] (by decide) (by decide) (by decide)
      (by decide)⟩

theorem write_bin_wrap (d : Nat) (h : uint32 (d + 1) = 0) :
    Writer.write_bin ⟨[], d⟩ none ⟨[], 0⟩ =
      .ok ⟨List.replicate d TAB ++ [58, 98, 32, 48, 10, 10], 4294967295⟩ := by
  have hw := write_bin_ok [] d none ⟨[], 0⟩ trivial (le_refl _) (by norm_num)
  rw [hw, h]
  have hdec : fmt_zu 0 = [48] := by decide
  have hu : uint32 (0 + 4294967295) = 4294967295 := by decide
  simp only [hdec, hu, field_line, label_bytes, Option.getD_none, List.nil_append,
    List.replicate_zero, List.take_nil, hex_text, List.cons_append, COLON, TAG_B, SPACE, NL]

theorem wrapped_form_ne (d : Nat) :
    List.replicate d TAB ++ [58, 98, 32, 48, 10, 10] ≠
      List.replicate d TAB ++ ([58, 98, 32, 48, 10] ++ (List.replicate (d + 1) TAB ++ [10])) := by
  intro h
  have := congrArg List.length h
  simp only [List.length_append, List.length_replicate, List.length_cons, List.length_nil]
    at this
  omega

/-- C5 as stated fails at depth 2^32 - 1: there indent + 1 wraps to 0, so write_bin of the
empty sequence without label emits 2^32 - 1 tabs, ":b 0", a newline and then a payload line
with no tab at all, which is not the form with d + 1 tabs. -/
theorem write_bin_wire_counterexample :
    Writer.write_bin ⟨[], 4294967295⟩ none ⟨[], 0⟩ =
      .ok ⟨List.replicate 4294967295 TAB ++ [58, 98, 32, 48, 10, 10], 4294967295⟩ ∧
    Writer.write_bin ⟨[], 4294967295⟩ none ⟨[], 0⟩ ≠
      .ok ⟨List.replicate 4294967295 TAB ++
        ([58, 98, 32, 48, 10] ++ (List.replicate (4294967295 + 1) TAB ++ [10])),
        4294967295⟩ := by
  have h := write_bin_wrap 4294967295 (by decide)
  refine ⟨h, ?_⟩
  rw [h]
  intro heq
  simp only [Except.ok.injEq, Writer.mk.injEq, and_true] at heq
  exact wrapped_form_ne 4294967295 heq


/-! ## Reading a binary field back -/

theorem hex_char_round (h : Nat) (hh : h < 16) :
    hex_char_to_byte (half_byte_to_hex_char h) = h := by
  interval_cases h <;> rfl

theorem nibbles_join (b : Nat) (hb : b < 256) : (b / 16 % 16 * 16 ||| b % 16) % 256 = b := by
  interval_cases b <;> rfl

theorem read_byte_hex_ok (b : Nat) (hb : b < 256) (rest : List Nat) (ind : Nat) :
    Reader.read_byte_hex ⟨hex_text [b] ++ rest, ind⟩ = .ok (b, ⟨rest, ind⟩) := by
  simp [Reader.read_byte_hex, Reader.read, hex_text,
    hex_char_round _ (Nat.mod_lt (b / 16) (by norm_num : 0 < 16)),
    hex_char_round _ (Nat.mod_lt b (by norm_num : 0 < 16)), nibbles_join b hb]

theorem read_bin_loop_ok (bs : List Nat) (hb : IsBytes bs) (pre junk rest : List Nat)
    (len ind : Nat) (hj : bs.length ≤ junk.length) :
    Reader.read_bin_loop bs.length pre.length ⟨pre ++ junk, len⟩ ⟨hex_text bs ++ rest, ind⟩ =
      .ok (⟨pre ++ bs ++ junk.drop bs.length, len⟩, ⟨rest, ind⟩) := by
  induction bs generalizing pre junk with
  | nil => simp [Reader.read_bin_loop, hex_text]
  | cons b bs ih =>
    have hb256 : b < 256 := hb b (by simp)
    obtain ⟨j, junk1, rfl⟩ : ∃ j junk1, junk = j :: junk1 := by
      cases junk with
      | nil => simp at hj
      | cons j junk1 => exact ⟨j, junk1, rfl⟩
    have hj1 : bs.length ≤ junk1.length := by simpa using hj
    have hread : Reader.read_byte_hex ⟨hex_text (b :: bs) ++ rest, ind⟩ =
        .ok (b, ⟨hex_text bs ++ rest, ind⟩) := by
      have := read_byte_hex_ok b hb256 (hex_text bs ++ rest) ind
      simpa [hex_text] using this
    have hset : Ar.set ⟨pre ++ j :: junk1, len⟩ pre.length b =
        .ok ⟨(pre ++ [b]) ++ junk1, len⟩ := by
      simp [Ar.set]
    have hih := ih (fun x hx => hb x (by simp [hx])) (pre ++ [b]) junk1 hj1
    have hlen : (pre ++ [b]).length = pre.length + 1 := by simp
    rw [hlen] at hih
    rw [List.length_cons, Reader.read_bin_loop]
    simp only [hread, ok_bind, hset, hih]
    simp

theorem alloc_split (env : Env) (n : Nat) :
    ∃ junk, Ar.alloc env (n + 1) = ⟨[] ++ junk, n + 1⟩ ∧ junk.length = n + 1 ∧
      junk.drop n = [env.fresh n] := by
  refine ⟨(List.range (n + 1)).map env.fresh, by simp [Ar.alloc], by simp, ?_⟩
  rw [List.range_succ]
  simp [List.drop_append_eq_append_drop]

/-- The bytes of a binary field as write_bin lays them out from depth `d`. -/
theorem read_bin_wire_intact (env : Env) (hst : ∀ t, env.stale t = some t)
    (bs : List Nat) (d : Nat) (label : Option (List Nat)) (further : List Nat)
    (hb : IsBytes bs) (hsz : bs.length ≤ 9223372036854775807) (hd : d ≤ 31)
    (hl : ValidLabel label) :
    Reader.read_bin env ⟨List.replicate d TAB ++ (field_line label TAG_B (fmt_zu bs.length) ++
        NL :: (List.replicate (d + 1) TAB ++ (hex_text bs ++ [NL]))) ++ further, d⟩ label =
      .ok (⟨bs ++ [env.fresh bs.length], bs.length⟩, ⟨further, d⟩) := by
  have hsz2 : bs.length < 18446744073709551616 := by omega
  have hf : (Field.bin ⟨bs, bs.length⟩).WF := ⟨le_refl _, hsz2, hb⟩
  have h1 : uint32 (d + 1) = d + 1 := by unfold uint32; omega
  have h2 : uint32 (d + 1 + 4294967295) = d := by unfold uint32; omega
  have hline := read_line_field d label (.bin ⟨bs, bs.length⟩)
    (List.replicate (d + 1) TAB ++ (hex_text bs ++ NL :: further)) (by omega) hl hf
  simp only [Field.tag, Field.text] at hline
  have hlab : read_label label TAG_B (field_line label TAG_B (fmt_zu bs.length)) =
      .ok (fmt_zu bs.length) := read_label_ok label TAG_B _
  have hre : List.replicate d TAB ++ (field_line label TAG_B (fmt_zu bs.length) ++
      NL :: (List.replicate (d + 1) TAB ++ (hex_text bs ++ [NL]))) ++
      further = List.replicate d TAB ++ (field_line label TAG_B (fmt_zu bs.length) ++
      NL :: (List.replicate (d + 1) TAB ++ (hex_text bs ++ NL :: further))) := by simp
  rw [hre]
  have hmin : min (bs.length : Int) LONG_MAX = bs.length := by
    simp only [LONG_MAX]
    omega
  have hconv : long_to_usize (bs.length : Int) = bs.length := by
    unfold long_to_usize
    omega
  have hind := read_indent_tabs (d + 1) (hex_text bs ++ NL :: further)
    (by simp only [MAX_TAB_LEN]; omega)
  have hsize : size_t (bs.length + 1) = bs.length + 1 := by unfold size_t; omega
  have hlen : size_t (bs.length + 1 + 18446744073709551615) = bs.length := by
    unfold size_t; omega
  obtain ⟨junk, hal, hjl, hjd⟩ := alloc_split env bs.length
  have hloop := read_bin_loop_ok bs hb [] junk (NL :: further) bs.length (d + 1) (by omega)
  simp only [List.length_nil, List.nil_append] at hloop
  have hal2 : Ar.alloc env (bs.length + 1) = ⟨junk, bs.length + 1⟩ := by simpa using hal
  simp [Reader.read_bin, hline, hlab, hst, strtol_fmt_zu, hmin, hconv, deref, h1, h2, hind,
    hsize, hal2, hlen, hloop, Reader.read, hjd]

/-- On a platform whose free leaves the block in place, read_bin reads back what
write_bin wrote: for every byte sequence of at most 2^63 - 1 bytes, every depth d ≤ 31 and
every valid label, the returned array reports length |bs|, holds bs in its first |bs| bytes
and one more byte of storage, the emitted bytes are consumed exactly and the depth is d. -/
theorem read_bin_write_bin_intact (env : Env) (hst : ∀ t, env.stale t = some t)
    (bs : List Nat) (d : Nat) (label : Option (List Nat)) (out further : List Nat)
    (hb : IsBytes bs) (hsz : bs.length ≤ 9223372036854775807) (hd : d ≤ 31)
    (hl : ValidLabel label) :
    ∃ emitted, Writer.write_bin ⟨out, d⟩ label ⟨bs, bs.length⟩ = .ok ⟨out ++ emitted, d⟩ ∧
      Reader.read_bin env ⟨emitted ++ further, d⟩ label =
        .ok (⟨bs ++ [env.fresh bs.length], bs.length⟩, ⟨further, d⟩) := by
  have h1 : uint32 (d + 1) = d + 1 := by unfold uint32; omega
  have h2 : uint32 (d + 1 + 4294967295) = d := by unfold uint32; omega
  have hw := write_bin_ok out d label ⟨bs, bs.length⟩ hl (le_refl _) (by
    show bs.length < 18446744073709551616
    omega)
  rw [h1, h2] at hw
  simp only [List.take_length] at hw
  exact ⟨_, hw, read_bin_wire_intact env hst bs d label further hb hsz hd hl⟩

/-- On a platform whose free leaves the block in place, read_cstr reads back what
write_cstr wrote: the returned buffer holds the bytes of s followed by a terminator, and
the payload line carries 2 * strlen(s) hex characters. -/
theorem read_cstr_write_cstr_intact (env : Env) (hst : ∀ t, env.stale t = some t)
    (s : List Nat) (d : Nat) (label : Option (List Nat)) (out further : List Nat)
    (hs : IsCStr s) (hsz : s.length ≤ 9223372036854775807) (hd : d ≤ 31)
    (hl : ValidLabel label) :
    ∃ emitted, Writer.write_cstr ⟨out, d⟩ label s = .ok ⟨out ++ emitted, d⟩ ∧
      Reader.read_cstr env ⟨emitted ++ further, d⟩ label = .ok (s ++ [0], ⟨further, d⟩) ∧
      emitted = List.replicate d TAB ++ (field_line label TAG_B (fmt_zu s.length) ++
        NL :: (List.replicate (d + 1) TAB ++ (hex_text s ++ [NL]))) ∧
      (hex_text s).length = 2 * s.length := by
  have h1 : uint32 (d + 1) = d + 1 := by unfold uint32; omega
  have h2 : uint32 (d + 1 + 4294967295) = d := by unfold uint32; omega
  have hw := write_bin_ok out d label ⟨s ++ [0], s.length⟩ hl (by simp) (by
    show s.length < 18446744073709551616
    omega)
  rw [h1, h2] at hw
  have htake : (s ++ [0]).take s.length = s := by simp
  simp only [htake] at hw
  have hb : IsBytes s := fun b hbm => (hs b hbm).2
  have hr := read_bin_wire_intact env hst s d label further hb hsz hd hl
  refine ⟨_, hw, ?_, rfl, hex_text_length s⟩
  rw [Reader.read_cstr, hr]
  simp [Ar.set]

/-- C3 (the code departs from it): read_bin passes the line buffer to free and only then
parses the byte count out of it. At depth 0, write_bin of the single byte ff under label
"x" emits "x:b 1\n\tff\n"; read_bin on these bytes reaches the load from the freed block,
which has no defined result. -/
theorem read_bin_use_after_free :
    Writer.write_bin ⟨[], 0⟩ (some [120]) ⟨[255], 1⟩ =
      .ok ⟨[120, 58, 98, 32, 49, 10, 9, 102, 102, 10], 0⟩ ∧
    Reader.read_bin Env.strict ⟨[120, 58, 98, 32, 49, 10, 9, 102, 102, 10], 0⟩ (some [120]) =
      .error .use_after_free := by
  decide

/-- C4 (the code departs from it, through read_bin): at depth 0, write_cstr of "hi" under
label "s" emits "s:b 2\n\t6869\n", four hex characters and no terminator; read_cstr on
these bytes reaches the load from the freed line buffer in read_bin, which has no defined
result. -/
theorem read_cstr_use_after_free :
    Writer.write_cstr ⟨[], 0⟩ (some [115]) [104, 105] =
      .ok ⟨[115, 58, 98, 32, 50, 10, 9, 54, 56, 54, 57, 10], 0⟩ ∧
    Reader.read_cstr Env.strict ⟨[115, 58, 98, 32, 50, 10, 9, 54, 56, 54, 57, 10], 0⟩
      (some [115]) = .error .use_after_free := by
  decide

/-! ## Labels of length zero, and the line form of scalar fields and headers -/

/-- C11 (the code departs from it): with the empty, non-null label every writer emission
method, whatever its argument and the writer state, ends with the fwrite panic: the
zero-length fwrite returns 0 and write takes that for a failure. The claim says the call
succeeds and emits the line of an absent label. -/
theorem write_field_empty_label (w : Writer) (f : Field) :
    w.write_field (some []) f = .error .fwrite_failed := by
  have hw : ∀ w1 : Writer, w1.write_label (some []) f.tag = .error .fwrite_failed := by
    intro w1
    simp [Writer.write_label, Writer.write, MAX_LABEL_LEN]
  cases f <;>
    simp [Writer.write_field, Writer.write_i32, Writer.write_u32, Writer.write_f64,
      Writer.write_bin, Writer.write_cstr, Writer.write_arr_bgn, Writer.write_obj_bgn,
      write_indent_ok, Field.tag] at hw ⊢ <;> simp [hw]

/-- With an absent label the same calls go through: write_i32 of 5 on a fresh Writer emits
":i 5\n", while with the empty label it panics. -/
theorem write_i32_absent_vs_empty :
    Writer.write_i32 ⟨[], 0⟩ none 5 = .ok ⟨[58, 105, 32, 53, 10], 0⟩ ∧
    Writer.write_i32 ⟨[], 0⟩ (some []) 5 = .error .fwrite_failed := by
  decide

/-- C12: for every writer depth d, valid label L and value, write_i32, write_u32,
write_arr_bgn and write_obj_bgn succeed and append exactly d tabs, L (nothing when
absent), ':', the type tag, one space, the payload and a newline; the payload is the
canonical decimal text of the value (digits only, no leading zero, preceded by '-' exactly
for a negative int32) and is empty for an object header. And the calls that write the
object {id: u32 = 7, name: "abc", tags: array[u32] = [1, 2]} under the label "obj" on a
fresh Writer produce exactly
"obj:o \n\tid:u 7\n\tname:b 3\n\t\t616263\n\ttags:a 2\n\t\t:u 1\n\t\t:u 2\n". -/
theorem write_line_form :
    (∀ (d : Nat) (label : Option (List Nat)) (out : List Nat), ValidLabel label →
      (∀ v : Int, IsI32 v → ∃ ds w, Writer.write_i32 ⟨out, d⟩ label v = .ok w ∧
        w.file = out ++ (List.replicate d TAB ++ label_bytes label ++
          [COLON, TAG_I, SPACE] ++ ((if v < 0 then [MINUS] else []) ++ ds) ++ [NL]) ∧
        IsDecimalOf ds v.natAbs) ∧
      (∀ v : Nat, v < 4294967296 → ∃ ds w, Writer.write_u32 ⟨out, d⟩ label v = .ok w ∧
        w.file = out ++ (List.replicate d TAB ++ label_bytes label ++
          [COLON, TAG_U, SPACE] ++ ds ++ [NL]) ∧ IsDecimalOf ds v) ∧
      (∀ n : Nat, n < 18446744073709551616 →
        ∃ ds w, Writer.write_arr_bgn ⟨out, d⟩ label n = .ok w ∧
        w.file = out ++ (List.replicate d TAB ++ label_bytes label ++
          [COLON, TAG_A, SPACE] ++ ds ++ [NL]) ∧ IsDecimalOf ds n) ∧
      (∃ w, Writer.write_obj_bgn ⟨out, d⟩ label = .ok w ∧
        w.file = out ++ (List.replicate d TAB ++ label_bytes label ++
          [COLON, TAG_O, SPACE] ++ [NL]))) ∧
    Writer.run
      [.field (some [111, 98, 106]) .obj_bgn,
       .field (some [105, 100]) (.u32 7),
       .field (some [110, 97, 109, 101]) (.cstr [97, 98, 99]),
       .field (some [116, 97, 103, 115]) (.arr_bgn 2),
       .field none (.u32 1),
       .field none (.u32 2),
       .arr_end,
       .obj_end] ⟨[], 0⟩ =
      .ok ⟨[111, 98, 106, 58, 111, 32, 10, 9, 105, 100, 58, 117, 32, 55, 10, 9, 110, 97, 109,
        101, 58, 98, 32, 51, 10, 9, 9, 54, 49, 54, 50, 54, 51, 10, 9, 116, 97, 103, 115, 58,
        97, 32, 50, 10, 9, 9, 58, 117, 32, 49, 10, 9, 9, 58, 117, 32, 50, 10], 0⟩ := by
  refine ⟨?_, by decide⟩
  intro d label out hl
  refine ⟨?_, ?_, ?_, ?_⟩
  · intro v hv
    have hw := write_field_ok out d label (.i32 v) hl hv
    simp only [Writer.write_field, Field.tag, Field.text, Field.payload, Field.depth_after]
      at hw
    by_cases hneg : v < 0
    · refine ⟨decimal (-v).toNat, _, hw, ?_, ?_⟩
      · simp [field_line, fmt_i, hneg]
      · have : (-v).toNat = v.natAbs := by omega
        rw [← this]
        exact decimal_spec _
    · refine ⟨decimal v.toNat, _, hw, ?_, ?_⟩
      · simp [field_line, fmt_i, hneg]
      · have : v.toNat = v.natAbs := by omega
        rw [← this]
        exact decimal_spec _
  · intro v hv
    have hw := write_field_ok out d label (.u32 v) hl hv
    simp only [Writer.write_field, Field.tag, Field.text, Field.payload, Field.depth_after]
      at hw
    exact ⟨decimal v, _, hw, by simp [field_line, fmt_u], decimal_spec v⟩
  · intro n hn
    have hw := write_field_ok out d label (.arr_bgn n) hl hn
    simp only [Writer.write_field, Field.tag, Field.text, Field.payload, Field.depth_after]
      at hw
    exact ⟨decimal n, _, hw, by simp [field_line, fmt_zu], decimal_spec n⟩
  · have hw := write_field_ok out d label .obj_bgn hl trivial
    simp only [Writer.write_field, Field.tag, Field.text, Field.payload, Field.depth_after]
      at hw
    exact ⟨_, hw, by simp [field_line]⟩

/-- Witness of C12: the int32 -7 under the label "x" at depth 2. -/
theorem write_line_form_witness :
    ValidLabel (some [120]) ∧ IsI32 (-7) ∧
    ∃ ds w, Writer.write_i32 ⟨[], 2⟩ (some [120]) (-7) = .ok w ∧
      w.file = [] ++ (List.replicate 2 TAB ++ label_bytes (some [120]) ++
        [COLON, TAG_I, SPACE] ++ ((if (-7 : Int) < 0 then [MINUS] else []) ++ ds) ++ [NL]) ∧
      IsDecimalOf ds (-7 : Int).natAbs :=
  ⟨by decide, by decide, (write_line_form.1 2 (some [120]) [] (by decide)).1 (-7) (by decide)⟩

/-! ## Payload characters, unterminated lines and the formatting buffer -/

/-- Whatever two characters come next, read_byte_hex returns a byte: no character is
rejected. -/
theorem read_byte_hex_total (c1 c2 : Nat) (rest : List Nat) (ind : Nat) :
    ∃ b, Reader.read_byte_hex ⟨c1 :: c2 :: rest, ind⟩ = .ok (b, ⟨rest, ind⟩) := by
  simp [Reader.read_byte_hex, Reader.read]

/-- C13 (the code departs from it): hex_char_to_byte maps every character that is not a
decimal digit as if it were one of a-f. On a platform whose free leaves the line buffer in
place, read_bin at depth 0 on ":b 1\n\tAF\n" returns an array of reported length 1 whose
byte is 0xef; the claim says the read fails. -/
theorem read_bin_accepts_uppercase :
    Reader.read_bin Env.intact ⟨[58, 98, 32, 49, 10, 9, 65, 70, 10], 0⟩ none =
      .ok (⟨[239, 0], 1⟩, ⟨[], 0⟩) := by
  decide

/-- C15 (the code departs from it): read_line overwrites the last character fgets stored,
newline or not. At depth 0 on the source ":i 55", which ends without a newline, read_i32
returns 5, a value parsed from a shortened copy of the line; the claim says the read
fails. With the newline the same line reads as 55. -/
theorem read_i32_unterminated_line :
    Reader.read_i32 ⟨[58, 105, 32, 53, 53], 0⟩ none = .ok (5, ⟨[], 0⟩) ∧
    Reader.read_i32 ⟨[58, 105, 32, 53, 53, 10], 0⟩ none = .ok (55, ⟨[], 0⟩) := by
  decide

/-- The text of an int32, of a uint32 and of a size count, the latter also with the
newline write_bin formats along with it, fits the formatting buffer with its terminator. -/
theorem integer_text_fits (v : Int) (u n : Nat) (hv : IsI32 v) (hu : u < 4294967296)
    (hn : n < 18446744073709551616) :
    (fmt_i v).length + 1 ≤ MAX_VALUE_LEN ∧ (fmt_u u).length + 1 ≤ MAX_VALUE_LEN ∧
      (fmt_zu n).length + 1 ≤ MAX_VALUE_LEN ∧
      (fmt_zu n ++ [NL]).length + 1 ≤ MAX_VALUE_LEN := by
  have h1 := fmt_i_length v hv
  have h2 := decimal_length_u32 u hu
  have h3 := decimal_length_usize n hn
  simp only [MAX_VALUE_LEN, fmt_u, fmt_zu, List.length_append, List.length_singleton]
  omega

/-- C18 (the code departs from it): the double 2^100 is formatted by "%f" as
"1267650600228229401496703205376.000000", 38 characters, which with the terminator is 39
bytes for the 32-byte buffer of write_num: write_f64 overruns the buffer. The claim says
every formatted value fits. -/
theorem write_f64_overruns_buffer :
    fmt_f (.finite false 1 100) =
      [49, 50, 54, 55, 54, 53, 48, 54, 48, 48, 50, 50, 56, 50, 50, 57, 52, 48, 49, 52, 57, 54,
        55, 48, 51, 50, 48, 53, 51, 55, 54, 46, 48, 48, 48, 48, 48, 48] ∧
    (fmt_f (.finite false 1 100)).length + 1 = 39 ∧
    Writer.write_f64 ⟨[], 0⟩ none (.finite false 1 100) = .error .out_of_bounds := by
  decide

/-! ## The value text read_i32 accepts -/

theorem dropWhile_all {p : Nat → Bool} (ws l : List Nat) (h : ∀ c ∈ ws, p c = true) :
    (ws ++ l).dropWhile p = l.dropWhile p := by
  induction ws with
  | nil => rfl
  | cons a t ih =>
    rw [List.cons_append, List.dropWhile_cons, h a (List.mem_cons_self a t)]
    exact ih (fun c hc => h c (List.mem_cons_of_mem a hc))

theorem takeWhile_all {p : Nat → Bool} (ws l : List Nat) (h : ∀ c ∈ ws, p c = true) :
    (ws ++ l).takeWhile p = ws ++ l.takeWhile p := by
  induction ws with
  | nil => rfl
  | cons a t ih =>
    rw [List.cons_append, List.takeWhile_cons, h a (List.mem_cons_self a t), List.cons_append,
      ← ih (fun c hc => h c (List.mem_cons_of_mem a hc))]
    rfl

theorem digit_bounds (c : Nat) (h : isdigit c = true) : 48 ≤ c ∧ c ≤ 57 := by
  simpa [isdigit] using h

/-- On a numeral form strtol consumes the whole text and returns the denoted integer,
clamped to the range of long. -/
theorem strtol_numeral (ws ds : List Nat) (sg : Sign) (hws : ∀ c ∈ ws, isspace c = true)
    (hne : ds ≠ []) (hds : ∀ c ∈ ds, isdigit c = true) :
    strtol (ws ++ (sg.text ++ ds)) =
      (max (min (sg.apply (digits_value ds)) LONG_MAX) LONG_MIN, []) := by
  obtain ⟨a, t, rfl⟩ := List.exists_cons_of_ne_nil hne
  have hdb : ∀ c ∈ a :: t, 48 ≤ c ∧ c ≤ 57 := fun c hc => digit_bounds c (hds c hc)
  have ha := hdb a (by simp)
  have hsp : isspace a = false := by simp [isspace]; omega
  have hm : a ≠ MINUS := by simp [MINUS]; omega
  have hp : a ≠ PLUS := by simp [PLUS]; omega
  obtain ⟨h1, h2⟩ := takeWhile_isdigit_all (a :: t) [] hdb (by decide)
  simp only [List.append_nil] at h1 h2
  have hval : (0 : Int) ≤ (digits_value (a :: t) : Int) := Int.ofNat_nonneg _
  cases sg with
  | absent =>
    have hd : (ws ++ (Sign.text .absent ++ a :: t)).dropWhile isspace = a :: t := by
      rw [dropWhile_all ws _ hws]
      simp [Sign.text, List.dropWhile, hsp]
    simp only [strtol, hd, List.head?_cons, Option.some.injEq, hm, hp, or_self, if_false, h1,
      h2, Sign.apply]
    simp only [LONG_MIN, LONG_MAX, reduceCtorEq, if_false, Prod.mk.injEq, and_true]
    omega
  | minus =>
    have hspm : isspace MINUS = false := by decide
    have hd : (ws ++ (Sign.text .minus ++ a :: t)).dropWhile isspace = MINUS :: a :: t := by
      rw [dropWhile_all ws _ hws]
      simp [Sign.text, List.dropWhile, hspm]
    simp only [strtol, hd, List.head?_cons, true_or, if_true, List.tail_cons, h1, h2,
      Sign.apply]
    simp only [LONG_MIN, LONG_MAX, reduceCtorEq, if_false, Prod.mk.injEq, and_true]
    omega
  | plus =>
    have hspp : isspace PLUS = false := by decide
    have hpm : PLUS ≠ MINUS := by decide
    have hd : (ws ++ (Sign.text .plus ++ a :: t)).dropWhile isspace = PLUS :: a :: t := by
      rw [dropWhile_all ws _ hws]
      simp [Sign.text, List.dropWhile, hspp]
    simp only [strtol, hd, List.head?_cons, Option.some.injEq, hpm, or_true, if_true,
      List.tail_cons, h1, h2, Sign.apply, false_or]
    simp only [LONG_MIN, LONG_MAX, reduceCtorEq, if_false, Prod.mk.injEq, and_true]
    omega

theorem deref_eq_zero (l : List Nat) (hz : ∀ c ∈ l, c ≠ 0) (h : deref l = 0) : l = [] := by
  cases l with
  | nil => rfl
  | cons a t =>
    have : a = 0 := by simpa [deref] using h
    exact absurd this (hz a (by simp))

theorem dropWhile_no_zero {p : Nat → Bool} (l : List Nat) (hz : ∀ c ∈ l, c ≠ 0) :
    ∀ c ∈ l.dropWhile p, c ≠ 0 :=
  fun c hc => hz c ((List.dropWhile_sublist p).subset hc)

/-- If strtol stops at the terminator of a text without a zero byte, the text is empty or
a numeral form. -/
theorem strtol_end_nil (text : List Nat) (hz : ∀ c ∈ text, c ≠ 0)
    (h : deref (strtol text).2 = 0) : text = [] ∨ NumeralForm text := by
  have hsplit : text.takeWhile isspace ++ text.dropWhile isspace = text :=
    List.takeWhile_append_dropWhile isspace text
  have hws : ∀ c ∈ text.takeWhile isspace, isspace c = true :=
    fun c hc => List.mem_takeWhile_imp hc
  have hz1 : ∀ c ∈ text.dropWhile isspace, c ≠ 0 := dropWhile_no_zero text hz
  have key : ∀ (sg : Sign) (s2 : List Nat), text.dropWhile isspace = sg.text ++ s2 →
      deref (if s2.takeWhile isdigit = [] then text else s2.dropWhile isdigit) = 0 →
      text = [] ∨ NumeralForm text := by
    intro sg s2 hs2 hd
    by_cases hds : s2.takeWhile isdigit = []
    · rw [if_pos hds] at hd
      exact Or.inl (deref_eq_zero text hz hd)
    · rw [if_neg hds] at hd
      have hz2 : ∀ c ∈ s2.dropWhile isdigit, c ≠ 0 := by
        intro c hc
        apply hz1 c
        rw [hs2]
        exact List.mem_append_right _ ((List.dropWhile_sublist isdigit).subset hc)
      have hnil := deref_eq_zero _ hz2 hd
      have hs2eq : s2 = s2.takeWhile isdigit := by
        have := List.takeWhile_append_dropWhile isdigit s2
        rw [hnil, List.append_nil] at this
        exact this.symm
      refine Or.inr ⟨text.takeWhile isspace, sg, s2.takeWhile isdigit, ?_, hws, hds,
        fun c hc => List.mem_takeWhile_imp hc⟩
      rw [← hs2eq, ← hs2, hsplit]
  cases hs1 : text.dropWhile isspace with
  | nil =>
    apply key .absent [] (by simp [hs1, Sign.text])
    simp only [List.takeWhile_nil, if_true]
    simpa [strtol, hs1] using h
  | cons a t =>
    by_cases hm : a = MINUS
    · subst hm
      apply key .minus t (by simp [hs1, Sign.text])
      simp only [strtol, hs1, List.head?_cons, true_or, if_true, List.tail_cons] at h
      split at h <;> rename_i hds <;> simp only [hds, if_true, if_false] <;> exact h
    · by_cases hp : a = PLUS
      · subst hp
        apply key .plus t (by simp [hs1, Sign.text])
        simp only [strtol, hs1, List.head?_cons, or_true, if_true, List.tail_cons] at h
        split at h <;> rename_i hds <;> simp only [hds, if_true, if_false] <;> exact h
      · apply key .absent (a :: t) (by simp [hs1, Sign.text])
        simp only [strtol, hs1, List.head?_cons, Option.some.injEq, hm, hp, or_self,
          if_false] at h
        split at h <;> rename_i hds <;> simp only [hds, if_true, if_false] <;> exact h

theorem field_line_chars (label : Option (List Nat)) (type : Nat) (value : List Nat)
    (hl : ValidLabel label) (ht : type ≠ NL ∧ type ≠ 0) (hv : ∀ c ∈ value, c ≠ NL ∧ c ≠ 0) :
    NL ∉ field_line label type value ∧ (∀ c ∈ field_line label type value, c ≠ 0) := by
  have hlab : NL ∉ label_bytes label ∧ (∀ c ∈ label_bytes label, c ≠ 0) := by
    cases label with
    | none => simp [label_bytes]
    | some l =>
      obtain ⟨hc, -, -, hnl⟩ := hl
      exact ⟨hnl, fun c hc2 => (hc c hc2).1⟩
  obtain ⟨h1, h2⟩ := hlab
  refine ⟨?_, ?_⟩
  · intro hmem
    simp only [field_line, List.mem_append, List.mem_cons, List.mem_singleton,
      List.not_mem_nil, or_false] at hmem
    rcases hmem with (hmem | hmem | hmem | hmem) | hmem
    · exact h1 hmem
    · exact absurd hmem (by decide)
    · exact ht.1 hmem.symm
    · exact absurd hmem (by decide)
    · exact (hv _ hmem).1 rfl
  · intro c hmem
    simp only [field_line, List.mem_append, List.mem_cons, List.mem_singleton,
      List.not_mem_nil, or_false] at hmem
    rcases hmem with (hmem | hmem | hmem | hmem) | hmem
    · exact h2 c hmem
    · subst hmem; decide
    · subst hmem; exact ht.2
    · subst hmem; decide
    · exact (hv _ hmem).2

/-- What read_i32 does with a line that read_line hands over whole. -/
theorem read_i32_line (d : Nat) (label : Option (List Nat)) (text rest : List Nat)
    (hd : d ≤ 32) (hl : ValidLabel label) (hv : ∀ c ∈ text, c ≠ NL ∧ c ≠ 0)
    (hlen : (field_line label TAG_I text).length + 1 < MAX_LINE_LEN) :
    Reader.read_i32 ⟨List.replicate d TAB ++ (field_line label TAG_I text ++ NL :: rest), d⟩
      label =
      if deref (strtol text).2 ≠ 0 then .error .i32_parse_error
      else .ok (long_to_i32 (strtol text).1, ⟨rest, d⟩) := by
  obtain ⟨h1, h2⟩ := field_line_chars label TAG_I text hl (by decide) hv
  have hline := read_line_ok d (field_line label TAG_I text) rest hd h1 h2 hlen
  have hlab : read_label label TAG_I (field_line label TAG_I text) = .ok text :=
    read_label_ok label TAG_I text
  simp only [Reader.read_i32, hline, ok_bind, hlab]

/-- C14, amended to what strtol accepts and to lines that fit the line buffer: for every
depth d ≤ 32, valid label and value text without newline whose line (label, ":i ", text)
has at most 94 characters, read_i32 on the line returns the integer v whenever the text is
optional white space, an optional sign '+' or '-' and one or more decimal digits that
denote v in [-2^31, 2^31 - 1]; and it fails with the i32 parse panic for every non-empty
text that is not of this shape (no digit, or characters after the digits). -/
theorem read_i32_accepts (d : Nat) (label : Option (List Nat)) (text rest : List Nat)
    (hd : d ≤ 32) (hl : ValidLabel label) (hv : ∀ c ∈ text, c ≠ NL ∧ c ≠ 0)
    (hlen : (field_line label TAG_I text).length + 1 < MAX_LINE_LEN) :
    (∀ ws sg ds, text = ws ++ (Sign.text sg ++ ds) → (∀ c ∈ ws, isspace c = true) → ds ≠ [] →
      (∀ c ∈ ds, isdigit c = true) → IsI32 (sg.apply (digits_value ds)) →
      Reader.read_i32 ⟨List.replicate d TAB ++ (field_line label TAG_I text ++ NL :: rest), d⟩
        label = .ok (sg.apply (digits_value ds), ⟨rest, d⟩)) ∧
    (text ≠ [] → ¬ NumeralForm text →
      Reader.read_i32 ⟨List.replicate d TAB ++ (field_line label TAG_I text ++ NL :: rest), d⟩
        label = .error .i32_parse_error) := by
  have hread := read_i32_line d label text rest hd hl hv hlen
  constructor
  · intro ws sg ds htext hws hne hds hrange
    have hs := strtol_numeral ws ds sg hws hne hds
    rw [← htext] at hs
    have hclamp : max (min (sg.apply (digits_value ds)) LONG_MAX) LONG_MIN =
        sg.apply (digits_value ds) := by
      obtain ⟨h1, h2⟩ := hrange
      simp only [LONG_MAX, LONG_MIN]
      omega
    rw [hread, hs, hclamp]
    simp [deref, long_to_i32_id _ hrange]
  · intro hne hform
    rw [hread]
    have hnz : deref (strtol text).2 ≠ 0 := by
      intro h0
      rcases strtol_end_nil text (fun c hc => (hv c hc).2) h0 with h | h
      · exact hne h
      · exact hform h
    simp [hnz]

/-- Witness of C14: the text " +5" under the label "x" at depth 1. -/
theorem read_i32_accepts_witness :
    1 ≤ 32 ∧ ValidLabel (some [120]) ∧ (∀ c ∈ [32, 43, 53], c ≠ NL ∧ c ≠ 0) ∧
    (field_line (some [120]) TAG_I [32, 43, 53]).length + 1 < MAX_LINE_LEN ∧
    Reader.read_i32
      ⟨List.replicate 1 TAB ++ (field_line (some [120]) TAG_I [32, 43, 53] ++ NL :: [9]), 1⟩
      (some [120]) = .ok (Sign.apply .plus (digits_value [53]), ⟨[9], 1⟩) :=
  ⟨by decide, by decide, by decide, by decide,
    (read_i32_accepts 1 (some [120]) [32, 43, 53] [9] (by decide) (by decide) (by decide)
      (by decide)).1 [32] .plus [53] rfl (by decide) (by decide) (by decide) (by decide)⟩

/-- C14 as stated fails: at depth 0 read_i32 accepts " +5" (leading white space and a
plus sign) as 5, the empty text as 0, the out-of-range "2147483648" as -2147483648 and
"4294967296" as 0; only the text with a trailing character, "5x", ends in the i32 parse
panic. -/
theorem read_i32_accepts_counterexample :
    Reader.read_i32 ⟨[58, 105, 32, 32, 43, 53, 10], 0⟩ none = .ok (5, ⟨[], 0⟩) ∧
    Reader.read_i32 ⟨[58, 105, 32, 10], 0⟩ none = .ok (0, ⟨[], 0⟩) ∧
    Reader.read_i32 ⟨[58, 105, 32, 50, 49, 52, 55, 52, 56, 51, 54, 52, 56, 10], 0⟩ none =
      .ok (-2147483648, ⟨[], 0⟩) ∧
    Reader.read_i32 ⟨[58, 105, 32, 52, 50, 57, 52, 57, 54, 55, 50, 57, 54, 10], 0⟩ none =
      .ok (0, ⟨[], 0⟩) ∧
    Reader.read_i32 ⟨[58, 105, 32, 53, 120, 10], 0⟩ none = .error .i32_parse_error := by
  decide

/-! ## Labels that differ -/

theorem read_label_differs (x y : Option (List Nat)) (type expected : Nat)
    (value : List Nat) (hx : COLON ∉ label_bytes x) (hy : COLON ∉ label_bytes y)
    (hne : label_bytes x ≠ label_bytes y) :
    read_label y expected (field_line x type value) = .error .label_mismatch ∨
      read_label y expected (field_line x type value) = .error .expected_colon := by
  have hfl : field_line x type value = field_line (some (label_bytes x)) type value := by
    cases x <;> rfl
  rw [hfl]
  cases y with
  | some ys =>
    simp only [label_bytes, Option.getD_some] at hy hne
    obtain ⟨h1, h2⟩ := read_label_wrong (label_bytes x) ys type expected value hx hy hne
    by_cases hp : ys <+: label_bytes x
    · exact Or.inr (h1 hp)
    · exact Or.inl (h2 hp)
  | none =>
    have hne2 : label_bytes x ≠ [] := fun h => hne (by rw [h]; rfl)
    obtain ⟨c, t, hct⟩ := List.exists_cons_of_ne_nil hne2
    have hc : c ≠ COLON := by
      intro hcc
      apply hx
      rw [hct, hcc]
      simp
    right
    have hline : field_line (some (label_bytes x)) type value =
        c :: (t ++ [COLON, type, SPACE] ++ value) := by
      have hlb : label_bytes (some (label_bytes x)) = c :: t := hct
      simp only [field_line, hlb]
      simp
    rw [hline]
    simp [read_label, deref, hc]

/-- C16, amended with the depth bound of the indent buffer: for all labels x and y without
':' (x valid: absent or a non-empty string of at most 32 bytes without newline) that differ
as byte strings, an absent label counting as the empty string, for every well-formed field
and every depth d ≤ 32, the writer method with label x succeeds, and every reader method
with expected label y on the emitted bytes at the same depth ends with the label-mismatch
or the expected-colon panic and returns no value. -/
theorem read_field_other_label (env : Env) (strtod : List Nat → F64 × List Nat)
    (x y : Option (List Nat)) (f : Field) (op : ReadOp) (d : Nat) (out further : List Nat)
    (hx : ValidLabel x) (hxc : COLON ∉ label_bytes x) (hyc : COLON ∉ label_bytes y)
    (hne : label_bytes x ≠ label_bytes y) (hf : f.WF) (hd : d ≤ 32) :
    ∃ emitted, Writer.write_field ⟨out, d⟩ x f = .ok ⟨out ++ emitted, f.depth_after d⟩ ∧
      (Reader.read_field env strtod ⟨emitted ++ further, d⟩ y op = .error .label_mismatch ∨
        Reader.read_field env strtod ⟨emitted ++ further, d⟩ y op =
          .error .expected_colon) := by
  refine ⟨_, write_field_ok out d x f hx hf, ?_⟩
  have hline := read_line_field d x f (f.payload d ++ further) hd hx hf
  have hre : List.replicate d TAB ++ (field_line x f.tag f.text ++ NL :: f.payload d)
      ++ further = List.replicate d TAB ++
        (field_line x f.tag f.text ++ NL :: (f.payload d ++ further)) := by simp
  rw [hre]
  rcases read_label_differs x y f.tag op.tag f.text hxc hyc hne with h | h
  · exact Or.inl (read_field_label_error env strtod _ _ _ y op _ hline h)
  · exact Or.inr (read_field_label_error env strtod _ _ _ y op _ hline h)

/-- Witness of C16: an int32 field 5 written without label at depth 1, read with the
expected label "x". -/
theorem read_field_other_label_witness :
    ValidLabel none ∧ COLON ∉ label_bytes none ∧ COLON ∉ label_bytes (some [120]) ∧
    label_bytes none ≠ label_bytes (some [120]) ∧ (Field.i32 5).WF ∧ 1 ≤ 32 ∧
    ∃ emitted, Writer.write_field ⟨[], 1⟩ none (.i32 5) =
        .ok ⟨[] ++ emitted, (Field.i32 5).depth_after 1⟩ ∧
      (Reader.read_field Env.strict strtod_none ⟨emitted ++ [], 1⟩ (some [120]) .i32 =
          .error .label_mismatch ∨
        Reader.read_field Env.strict strtod_none ⟨emitted ++ [], 1⟩ (some [120]) .i32 =
          .error .expected_colon) :=
  ⟨by decide, by decide, by decide, by decide, by decide, by decide,
    read_field_other_label Env.strict strtod_none none (some [120]) (.i32 5) .i32 1 [] []
      (by decide) (by decide) (by decide) (by decide) (by decide) (by decide)⟩

/-- C16 as stated fails beyond depth 32: at depth 33 an int32 field written with label
"x" and read with expected label "y" makes read_indent store 33 characters in its
32-character buffer before any label is compared; the outcome is undefined behaviour, none
of the panics of the reader. -/
theorem read_field_other_label_counterexample :
    Writer.write_i32 ⟨[], 33⟩ (some [120]) 5 =
      .ok ⟨List.replicate 33 TAB ++ [120, 58, 105, 32, 53, 10], 33⟩ ∧
    Reader.read_i32 ⟨List.replicate 33 TAB ++ [120, 58, 105, 32, 53, 10], 33⟩ (some [121]) =
      .error .out_of_bounds := by
  decide

/-! ## The indent buffer -/

theorem read_indent_within (r : Reader) (hd : r.indent ≤ 32) :
    (r.file.take r.indent).length ≤ MAX_TAB_LEN ∧ r.read_indent ≠ .error .out_of_bounds := by
  have hlen : (r.file.take r.indent).length ≤ MAX_TAB_LEN := by
    simp only [List.length_take, MAX_TAB_LEN]
    omega
  refine ⟨hlen, ?_⟩
  unfold Reader.read_indent
  split
  · simp
  · rw [if_neg (by omega)]
    unfold Reader.read
    simp only []
    split
    · simp
    · simp only [ok_bind]
      split <;> simp

/-- C19, amended for the second validation of read_bin and read_cstr: for every Reader of
depth at most 32, the indent validation of read_line, with which every reader method
starts, stores at most 32 characters and so stays inside the indent buffer, and no method
ends out of bounds because of it; the second validation of read_bin (and of read_cstr
through it), made at depth + 1, stays inside the buffer when the depth is at most 31. -/
theorem read_indent_budget (env : Env) (strtod : List Nat → F64 × List Nat) (r : Reader)
    (hd : r.indent ≤ 32) :
    (r.file.take r.indent).length ≤ MAX_TAB_LEN ∧
    r.read_indent ≠ .error .out_of_bounds ∧
    (∀ label op, r.read_field env strtod label op = .error .out_of_bounds →
      ∃ r1, r.read_indent = .ok r1) ∧
    (r.indent ≤ 31 → ∀ file : List Nat,
      (file.take (uint32 (r.indent + 1))).length ≤ MAX_TAB_LEN ∧
      Reader.read_indent ⟨file, uint32 (r.indent + 1)⟩ ≠ .error .out_of_bounds) := by
  obtain ⟨h1, h2⟩ := read_indent_within r hd
  refine ⟨h1, h2, ?_, ?_⟩
  · intro label op hop
    cases hri : r.read_indent with
    | ok r1 => exact ⟨r1, rfl⟩
    | error e =>
      have hline : r.read_line = .error e := by simp [Reader.read_line, hri]
      have := read_field_line_error env strtod r label op e hline
      rw [this] at hop
      simp only [Except.error.injEq] at hop
      rw [hop] at hri
      exact absurd hri h2
  · intro h31 file
    have hu : uint32 (r.indent + 1) = r.indent + 1 := by unfold uint32; omega
    have := read_indent_within ⟨file, uint32 (r.indent + 1)⟩ (by
      show uint32 (r.indent + 1) ≤ 32
      omega)
    exact this

/-- Witness of C19: a Reader of depth 32 in front of 32 tabs and ":i 5\n". -/
theorem read_indent_budget_witness :
    (32 : Nat) ≤ 32 ∧
    ((List.replicate 32 TAB ++ [58, 105, 32, 53, 10]).take 32).length ≤ MAX_TAB_LEN ∧
    Reader.read_indent ⟨List.replicate 32 TAB ++ [58, 105, 32, 53, 10], 32⟩ ≠
      .error .out_of_bounds ∧
    Reader.read_i32 ⟨List.replicate 32 TAB ++ [58, 105, 32, 53, 10], 32⟩ none =
      .ok (5, ⟨[], 32⟩) :=
  ⟨by decide,
    (read_indent_budget Env.strict strtod_none
      ⟨List.replicate 32 TAB ++ [58, 105, 32, 53, 10], 32⟩ (by decide)).1,
    (read_indent_budget Env.strict strtod_none
      ⟨List.replicate 32 TAB ++ [58, 105, 32, 53, 10], 32⟩ (by decide)).2.1,
    by decide⟩

/-- C19 as stated fails for read_bin and read_cstr at depth 32: the payload line is
validated at depth 33, so 33 characters are stored in the 32-character buffer. The empty
binary field written at depth 32 shows it, read on a platform whose free leaves the line
buffer in place. -/
theorem read_indent_budget_counterexample :
    Writer.write_bin ⟨[], 32⟩ none ⟨[], 0⟩ =
      .ok ⟨List.replicate 32 TAB ++ [58, 98, 32, 48, 10] ++ List.replicate 33 TAB ++ [10],
        32⟩ ∧
    Reader.read_indent ⟨List.replicate 33 TAB ++ [10], uint32 (32 + 1)⟩ =
      .error .out_of_bounds ∧
    Reader.read_bin Env.intact
      ⟨List.replicate 32 TAB ++ [58, 98, 32, 48, 10] ++ List.replicate 33 TAB ++ [10], 32⟩
      none = .error .out_of_bounds ∧
    Reader.read_cstr Env.intact
      ⟨List.replicate 32 TAB ++ [58, 98, 32, 48, 10] ++ List.replicate 33 TAB ++ [10], 32⟩
      none = .error .out_of_bounds := by
  decide

/-! ## Depth along a sequence of writer calls -/

theorem begins_cons (c : Call) (cs : List Call) :
    begins (c :: cs) = begins cs + (if c.is_bgn then 1 else 0) := by
  simp [begins, List.countP_cons]

theorem ends_cons (c : Call) (cs : List Call) :
    ends (c :: cs) = ends cs + (if c.is_end then 1 else 0) := by
  simp [ends, List.countP_cons]

theorem begins_append (xs ys : List Call) : begins (xs ++ ys) = begins xs + begins ys := by
  simp [begins, List.countP_append]

theorem run_append (xs ys : List Call) (w : Writer) :
    Writer.run (xs ++ ys) w = (Writer.run xs w >>= Writer.run ys) := by
  induction xs generalizing w with
  | nil => simp [Writer.run]
  | cons c xs ih =>
    simp only [List.cons_append, Writer.run]
    cases hs : w.step c with
    | error e => simp
    | ok w1 => simp [ih]

theorem payload_eq_payload_line (f : Field) (d : Nat) (hd : d + 1 < 4294967296) :
    f.payload d = f.payload_line d := by
  have hu : uint32 (d + 1) = d + 1 := by unfold uint32; omega
  cases f <;> simp [Field.payload, Field.payload_line, hu]

/-- One call from depth `d`: what it appends and the depth it leaves. -/
theorem step_ok (c : Call) (out : List Nat) (d : Nat)
    (hv : ∀ label f, c = .field label f → ValidLabel label ∧ f.WF)
    (hd : d + 1 < 4294967296) (he : c.is_end = true → 0 < d) :
    Writer.step ⟨out, d⟩ c =
      .ok ⟨out ++ c.lines d, d + (if c.is_bgn then 1 else 0) - (if c.is_end then 1 else 0)⟩ := by
  have hu : uint32 (d + 1) = d + 1 := by unfold uint32; omega
  have hu2 : uint32 (d + 1 + 4294967295) = d := by unfold uint32; omega
  cases c with
  | field label f =>
    obtain ⟨hl, hf⟩ := hv label f rfl
    have hw := write_field_ok out d label f hl hf
    rw [payload_eq_payload_line f d hd] at hw
    simp only [Writer.step, hw, Call.lines]
    cases f <;> simp [Field.depth_after, Call.is_bgn, Call.is_end, hu, hu2]
  | arr_end =>
    have hpos := he rfl
    have hu3 : uint32 (d + 4294967295) = d - 1 := by unfold uint32; omega
    simp [Writer.step, Writer.write_arr_end, Call.lines, Call.is_bgn, Call.is_end, hu3]
  | obj_end =>
    have hpos := he rfl
    have hu3 : uint32 (d + 4294967295) = d - 1 := by unfold uint32; omega
    simp [Writer.step, Writer.write_obj_end, Call.lines, Call.is_bgn, Call.is_end, hu3]

theorem bgn_end_bits (c : Call) :
    ∃ b e : Nat, (if c.is_bgn = true then 1 else 0) = b ∧ (if c.is_end = true then 1 else 0) = e ∧
      b + e ≤ 1 ∧ (c.is_end = true → e = 1) := by
  cases c with
  | field label f => cases f <;> simp [Call.is_bgn, Call.is_end]
  | arr_end => simp [Call.is_bgn, Call.is_end]
  | obj_end => simp [Call.is_bgn, Call.is_end]

/-- A sequence of calls from depth `d` runs through and leaves depth
`d + begins - ends`, given that it never closes more than is open and never opens
beyond the range of the depth counter. -/
theorem run_depth (cs : List Call) (out : List Nat) (d : Nat) (hv : ValidCalls cs)
    (hn : ∀ k, ends (cs.take k) ≤ d + begins (cs.take k))
    (hb : d + begins cs + 1 < 4294967296) :
    ∃ w, Writer.run cs ⟨out, d⟩ = .ok w ∧ w.indent = d + begins cs - ends cs := by
  induction cs generalizing out d with
  | nil => exact ⟨⟨out, d⟩, rfl, by simp [begins, ends]⟩
  | cons c cs ih =>
    obtain ⟨b, e, hbdef, hedef, hbe, hee⟩ := bgn_end_bits c
    have hbc : begins (c :: cs) = begins cs + b := by rw [begins_cons, hbdef]
    have hec : ends (c :: cs) = ends cs + e := by rw [ends_cons, hedef]
    have hbk : ∀ k, begins (c :: cs.take k) = begins (cs.take k) + b := by
      intro k; rw [begins_cons, hbdef]
    have hek : ∀ k, ends (c :: cs.take k) = ends (cs.take k) + e := by
      intro k; rw [ends_cons, hedef]
    have h1 := hn 1
    simp only [List.take_succ_cons, List.take_zero] at h1
    have hb0 : begins ([] : List Call) = 0 := rfl
    have he0 : ends ([] : List Call) = 0 := rfl
    rw [begins_cons, ends_cons, hbdef, hedef, hb0, he0] at h1
    have hstep := step_ok c out d (fun label f hc => hv label f (by simp [hc]))
      (by omega)
      (by
        intro hce
        have := hee hce
        omega)
    rw [hbdef, hedef] at hstep
    obtain ⟨w, hw, hwi⟩ := ih (out ++ c.lines d) (d + b - e)
      (fun label f hm => hv label f (by simp [hm]))
      (by
        intro k
        have hk := hn (k + 1)
        simp only [List.take_succ_cons] at hk
        rw [hbk, hek] at hk
        omega)
      (by omega)
    refine ⟨w, ?_, ?_⟩
    · simp only [Writer.run, hstep, ok_bind, hw]
    · rw [hwi, hbc, hec]
      have hk := hn (cs.length + 1)
      simp only [List.take_succ_cons, List.take_length] at hk
      rw [hbc, hec] at hk
      omega

theorem leading_tabs_replicate (k : Nat) (l : List Nat) (h : l.head? ≠ some TAB) :
    leading_tabs (List.replicate k TAB ++ l) = k := by
  have hl : l.takeWhile (fun c => decide (c = TAB)) = [] := by
    cases l with
    | nil => rfl
    | cons a t =>
      have ha : a ≠ TAB := by simpa using h
      simp [List.takeWhile, ha]
  unfold leading_tabs
  rw [takeWhile_all (List.replicate k TAB) l (by
    intro c hc
    simp [List.eq_of_mem_replicate hc])]
  simp [hl]

theorem half_byte_to_hex_char_ne_tab (h : Nat) (hh : h < 16) :
    half_byte_to_hex_char h ≠ TAB := by
  interval_cases h <;> decide

theorem hex_line_head (bs : List Nat) : (hex_text bs ++ [NL]).head? ≠ some TAB := by
  cases bs with
  | nil => decide
  | cons b t =>
    simp only [hex_text, List.cons_append, List.head?_cons, ne_eq, Option.some.injEq]
    exact half_byte_to_hex_char_ne_tab _ (Nat.mod_lt _ (by norm_num))

theorem field_line_head (label : Option (List Nat)) (type : Nat) (value rest : List Nat)
    (h : (label_bytes label).head? ≠ some TAB) :
    (field_line label type value ++ rest).head? ≠ some TAB := by
  cases hlb : label_bytes label with
  | nil => simp [field_line, hlb, COLON, TAB]
  | cons a t =>
    rw [hlb] at h
    simpa [field_line, hlb] using h

/-- C17, amended for labels that begin with a tab and for the range of the depth counter:
for every sequence of writer calls with valid labels and well-formed arguments, started on
a fresh Writer, in which no leading part holds more end calls than begin calls and which
holds fewer than 2^32 - 1 begin calls, the sequence runs through and leaves depth
begins - ends; each call appends, behind as many tabs as containers are open at that
moment, its header line and, for a binary field, the payload line behind one tab more;
an end call appends nothing; a call that neither opens nor closes leaves the depth as it
was; the header line starts with exactly that many tabs when the label does not begin
with a tab, the payload line with exactly one more. -/
theorem write_depth_discipline (cs : List Call) (hv : ValidCalls cs) (hn : WellNested cs)
    (hb : begins cs < 4294967295) :
    (∃ w, Writer.run cs ⟨[], 0⟩ = .ok w ∧ w.indent = begins cs - ends cs) ∧
    (∀ pre c post, cs = pre ++ c :: post →
      ∃ w1 w2, Writer.run pre ⟨[], 0⟩ = .ok w1 ∧ w1.step c = .ok w2 ∧
        w1.indent = begins pre - ends pre ∧
        w2.file = w1.file ++ c.lines (begins pre - ends pre) ∧
        (c.is_end = true → w2.file = w1.file) ∧
        (c.is_bgn = false → c.is_end = false → w2.indent = w1.indent)) ∧
    (∀ k label f, (label_bytes label).head? ≠ some TAB →
      leading_tabs (Call.lines k (.field label f)) = k) ∧
    (∀ (k : Nat) (f : Field), f.tag = TAG_B → leading_tabs (f.payload_line k) = k + 1) := by
  refine ⟨?_, ?_, ?_, ?_⟩
  · obtain ⟨w, hw, hwi⟩ := run_depth cs [] 0 hv (fun k => by simpa using hn k) (by omega)
    exact ⟨w, hw, by simpa using hwi⟩
  · intro pre c post hcs
    have hpre_take : ∀ k, pre.take k = cs.take (min k pre.length) := by
      intro k
      rw [hcs, List.take_append_eq_append_take]
      have : min k pre.length - pre.length = 0 := by omega
      rw [this]
      simp [List.take_take]
    have hbpre : begins pre ≤ begins cs := by
      rw [hcs, begins_append]
      omega
    have hnpre : ∀ k, ends (pre.take k) ≤ 0 + begins (pre.take k) := by
      intro k
      rw [hpre_take k]
      simpa using hn (min k pre.length)
    obtain ⟨w1, hw1, hw1i⟩ := run_depth pre [] 0
      (fun label f hm => hv label f (by rw [hcs]; simp [hm])) hnpre (by omega)
    have hw1i2 : w1.indent = begins pre - ends pre := by simpa using hw1i
    have hfull := hnpre pre.length
    simp only [List.take_length, Nat.zero_add] at hfull
    have hnext := hn (pre.length + 1)
    have htake : cs.take (pre.length + 1) = pre ++ [c] := by
      rw [hcs, List.take_append_eq_append_take]
      simp
    rw [htake] at hnext
    obtain ⟨b, e, hbdef, hedef, hbe, hee⟩ := bgn_end_bits c
    have hbs : begins (pre ++ [c]) = begins pre + b := by
      rw [begins_append, begins_cons, hbdef]
      have : begins ([] : List Call) = 0 := rfl
      omega
    have hes : ends (pre ++ [c]) = ends pre + e := by
      simp only [ends, List.countP_append, List.countP_cons, List.countP_nil, hedef,
        Nat.zero_add]
    rw [hbs, hes] at hnext
    have hstep := step_ok c w1.file w1.indent
      (fun label f hc => hv label f (by rw [hcs, hc]; simp))
      (by omega)
      (by
        intro hce
        have := hee hce
        omega)
    have hw1eq : (⟨w1.file, w1.indent⟩ : Writer) = w1 := rfl
    rw [hw1eq] at hstep
    refine ⟨w1, _, hw1, hstep, hw1i2, ?_, ?_, ?_⟩
    · rw [hw1i2]
    · intro hce
      cases c <;> simp [Call.is_end] at hce <;> simp [Call.lines]
    · intro hcb hce
      simp [hcb, hce]
  · intro k label f hlab
    simp only [Call.lines]
    exact leading_tabs_replicate k _ (field_line_head label f.tag f.text _ hlab)
  · intro k f hf
    cases f with
    | bin value => exact leading_tabs_replicate (k + 1) _ (hex_line_head _)
    | cstr value => exact leading_tabs_replicate (k + 1) _ (hex_line_head _)
    | i32 v => simp [Field.tag, TAG_I, TAG_U, TAG_F, TAG_A, TAG_O, TAG_B] at hf
    | u32 v => simp [Field.tag, TAG_I, TAG_U, TAG_F, TAG_A, TAG_O, TAG_B] at hf
    | f64 v => simp [Field.tag, TAG_I, TAG_U, TAG_F, TAG_A, TAG_O, TAG_B] at hf
    | arr_bgn n => simp [Field.tag, TAG_I, TAG_U, TAG_F, TAG_A, TAG_O, TAG_B] at hf
    | obj_bgn => simp [Field.tag, TAG_I, TAG_U, TAG_F, TAG_A, TAG_O, TAG_B] at hf

/-- Witness of C17: an object holding an int32 field, opened and closed on a fresh
Writer. -/
theorem write_depth_discipline_witness :
    ValidCalls [.field (some [111]) .obj_bgn, .field (some [105]) (.i32 5), .obj_end] ∧
    WellNested [.field (some [111]) .obj_bgn, .field (some [105]) (.i32 5), .obj_end] ∧
    begins [.field (some [111]) .obj_bgn, .field (some [105]) (.i32 5), .obj_end] <
      4294967295 ∧
    ∃ w, Writer.run [.field (some [111]) .obj_bgn, .field (some [105]) (.i32 5), .obj_end]
        ⟨[], 0⟩ = .ok w ∧
      w.indent = begins [.field (some [111]) .obj_bgn, .field (some [105]) (.i32 5), .obj_end]
        - ends [.field (some [111]) .obj_bgn, .field (some [105]) (.i32 5), .obj_end] :=
  have hv : ValidCalls
      [.field (some [111]) .obj_bgn, .field (some [105]) (.i32 5), .obj_end] := by
    intro label f hm
    simp only [List.mem_cons, Call.field.injEq, List.mem_singleton, reduceCtorEq,
      List.not_mem_nil, or_false] at hm
    rcases hm with ⟨rfl, rfl⟩ | ⟨rfl, rfl⟩ <;> decide
  have hn : WellNested
      [.field (some [111]) .obj_bgn, .field (some [105]) (.i32 5), .obj_end] := by
    intro k
    match k with
    | 0 => decide
    | 1 => decide
    | 2 => decide
    | k + 3 => simp [ends, begins, Call.is_bgn, Call.is_end]
  ⟨hv, hn, by decide, (write_depth_discipline _ hv hn (by decide)).1⟩

theorem run_replicate_obj_bgn (n : Nat) (out : List Nat) (d : Nat) (hd : d < 4294967296) :
    ∃ w, Writer.run (List.replicate n (Call.field none Field.obj_bgn)) ⟨out, d⟩ = .ok w ∧
      w.indent = uint32 (d + n) := by
  induction n generalizing out d with
  | zero =>
    refine ⟨⟨out, d⟩, rfl, ?_⟩
    simp only [uint32]
    omega
  | succ n ih =>
    have hstep := write_field_ok out d none .obj_bgn trivial trivial
    obtain ⟨w, hw, hwi⟩ := ih (out ++ (List.replicate d TAB ++
      (field_line none Field.obj_bgn.tag Field.obj_bgn.text ++ NL :: Field.obj_bgn.payload d)))
      (Field.obj_bgn.depth_after d) (by
        simp only [Field.depth_after, uint32]
        omega)
    refine ⟨w, ?_, ?_⟩
    · simp only [List.replicate_succ, Writer.run, Writer.step, hstep, ok_bind, hw]
    · rw [hwi]
      simp only [Field.depth_after, uint32]
      omega

theorem begins_replicate_obj_bgn (n : Nat) :
    begins (List.replicate n (Call.field none Field.obj_bgn)) = n ∧
      ends (List.replicate n (Call.field none Field.obj_bgn)) = 0 := by
  induction n with
  | zero => exact ⟨rfl, rfl⟩
  | succ n ih =>
    rw [List.replicate_succ, begins_cons, ends_cons, ih.1, ih.2]
    simp [Call.is_bgn, Call.is_end]

theorem well_nested_replicate_obj_bgn (n : Nat) :
    WellNested (List.replicate n (Call.field none Field.obj_bgn)) := by
  intro k
  rw [List.take_replicate, (begins_replicate_obj_bgn _).2]
  exact Nat.zero_le _

/-- C17 as stated fails in two ways. A label may begin with a tab: on a fresh Writer
write_i32 with the label "\tx" emits a line that starts with one tab although no container
is open. And the depth counter has 32 bits: after 2^32 calls of write_obj_bgn, none of
them closed, the depth is 0, not 2^32. -/
theorem write_depth_discipline_counterexample :
    (Writer.write_i32 ⟨[], 0⟩ (some [9, 120]) 5 = .ok ⟨[9, 120, 58, 105, 32, 53, 10], 0⟩ ∧
      leading_tabs [9, 120, 58, 105, 32, 53, 10] = 1) ∧
    (WellNested (List.replicate 4294967296 (Call.field none Field.obj_bgn)) ∧
      begins (List.replicate 4294967296 (Call.field none Field.obj_bgn)) = 4294967296 ∧
      ends (List.replicate 4294967296 (Call.field none Field.obj_bgn)) = 0 ∧
      ∃ w, Writer.run (List.replicate 4294967296 (Call.field none Field.obj_bgn)) ⟨[], 0⟩ =
        .ok w ∧ w.indent = 0) := by
  refine ⟨by decide, well_nested_replicate_obj_bgn _, (begins_replicate_obj_bgn _).1,
    (begins_replicate_obj_bgn _).2, ?_⟩
  obtain ⟨w, hw, hwi⟩ := run_replicate_obj_bgn 4294967296 [] 0 (by decide)
  exact ⟨w, hw, by rw [hwi]; decide⟩

/-! ## Whole streams -/

/-- C20 (the code departs from it, through read_bin): on a fresh Writer the one-call
sequence write_bin("x", {0xff}) produces "x:b 1\n\tff\n" and leaves depth 0; the mirrored
sequence read_bin("x") on a fresh Reader over these bytes does not return the value: it
reaches the load from the line buffer that read_bin has already freed. -/
theorem run_mirrored_use_after_free :
    Writer.run [.field (some [120]) (.bin ⟨[255], 1⟩)] ⟨[], 0⟩ =
      .ok ⟨[120, 58, 98, 32, 49, 10, 9, 102, 102, 10], 0⟩ ∧
    Reader.run Env.strict strtod_none
      [Call.mirror (.field (some [120]) (.bin ⟨[255], 1⟩))]
      ⟨[120, 58, 98, 32, 49, 10, 9, 102, 102, 10], 0⟩ = .error .use_after_free := by
  decide

theorem read_i32_wire (d : Nat) (label : Option (List Nat)) (v : Int) (further : List Nat)
    (hd : d ≤ 32) (hl : ValidLabel label) (hv : IsI32 v) :
    Reader.read_i32 ⟨List.replicate d TAB ++ (field_line label TAG_I (fmt_i v) ++ NL :: further),
      d⟩ label = .ok (v, ⟨further, d⟩) := by
  have hlen := fmt_i_length v hv
  obtain ⟨-, -, h3⟩ := field_line_props label TAG_I (fmt_i v) hl (by decide)
    (fmt_i_line_chars v) (by simp only [MAX_VALUE_LEN]; omega)
  rw [read_i32_line d label (fmt_i v) further hd hl (fmt_i_line_chars v) h3, strtol_fmt_i v hv]
  simp [deref, long_to_i32_id v hv]

theorem read_arr_bgn_wire (d : Nat) (label : Option (List Nat)) (n : Nat)
    (further : List Nat) (hd : d ≤ 32) (hl : ValidLabel label)
    (hn : n ≤ 9223372036854775807) :
    Reader.read_arr_bgn
      ⟨List.replicate d TAB ++ (field_line label TAG_A (fmt_zu n) ++ NL :: further), d⟩ label =
        .ok (n, ⟨further, d + 1⟩) := by
  have hf : (Field.arr_bgn n).WF := by
    show n < 18446744073709551616
    omega
  have hline := read_line_field d label (.arr_bgn n) further hd hl hf
  simp only [Field.tag, Field.text] at hline
  have hlab : read_label label TAG_A (field_line label TAG_A (fmt_zu n)) = .ok (fmt_zu n) :=
    read_label_ok label TAG_A (fmt_zu n)
  have hmin : min (n : Int) LONG_MAX = n := by
    simp only [LONG_MAX]
    omega
  have hconv : long_to_usize (n : Int) = n := by
    unfold long_to_usize
    omega
  simp [Reader.read_arr_bgn, hline, hlab, strtol_fmt_zu, deref, hmin, hconv,
    uint32_succ d hd]

theorem read_obj_bgn_wire (d : Nat) (label : Option (List Nat)) (further : List Nat)
    (hd : d ≤ 32) (hl : ValidLabel label) :
    Reader.read_obj_bgn
      ⟨List.replicate d TAB ++ (field_line label TAG_O [] ++ NL :: further), d⟩ label =
        .ok ⟨further, d + 1⟩ := by
  have hline := read_line_field d label .obj_bgn further hd hl trivial
  simp only [Field.tag, Field.text] at hline
  have hlab : read_label label TAG_O (field_line label TAG_O []) = .ok [] :=
    read_label_ok label TAG_O []
  simp [Reader.read_obj_bgn, hline, hlab, uint32_succ d hd]

theorem read_cstr_wire_intact (env : Env) (hst : ∀ t, env.stale t = some t)
    (s : List Nat) (d : Nat) (label : Option (List Nat)) (further : List Nat)
    (hs : IsCStr s) (hsz : s.length ≤ 9223372036854775807) (hd : d ≤ 31)
    (hl : ValidLabel label) :
    Reader.read_cstr env ⟨List.replicate d TAB ++ (field_line label TAG_B (fmt_zu s.length) ++
        NL :: (List.replicate (d + 1) TAB ++ (hex_text s ++ [NL]))) ++ further, d⟩ label =
      .ok (s ++ [0], ⟨further, d⟩) := by
  have hb : IsBytes s := fun b hbm => (hs b hbm).2
  rw [Reader.read_cstr, read_bin_wire_intact env hst s d label further hb hsz hd hl]
  simp [Ar.set]

/-- On a platform whose free leaves the line buffer in place, the mirror of a call reads
back what the call wrote. -/
theorem read_step_intact (env : Env) (strtod : List Nat → F64 × List Nat)
    (hst : ∀ t, env.stale t = some t) (c : Call) (d : Nat) (further : List Nat)
    (hm : c.Mirrored) (hd : d ≤ 31) (he : c.is_end = true → 0 < d) :
    Reader.step env strtod ⟨c.lines d ++ further, d⟩ c.mirror =
      .ok ((read_back env [c]).head?,
        ⟨further, d + (if c.is_bgn then 1 else 0) - (if c.is_end then 1 else 0)⟩) := by
  cases c with
  | arr_end =>
    have hpos := he rfl
    have : uint32 (d + 4294967295) = d - 1 := by unfold uint32; omega
    simp [Reader.step, Call.mirror, Call.lines, Reader.read_arr_end, read_back, Call.is_bgn,
      Call.is_end, this]
  | obj_end =>
    have hpos := he rfl
    have : uint32 (d + 4294967295) = d - 1 := by unfold uint32; omega
    simp [Reader.step, Call.mirror, Call.lines, Reader.read_obj_end, read_back, Call.is_bgn,
      Call.is_end, this]
  | field label f =>
    cases f with
    | i32 v =>
      obtain ⟨hl, hv⟩ := hm
      have h := read_i32_wire d label v further (by omega) hl hv
      simp only [Reader.step, Call.mirror, Field.op, Reader.read_field, Call.lines, Field.tag,
        Field.text, Field.payload_line, List.append_assoc, List.cons_append, List.nil_append,
        h]
      simp [Except.map, read_back, Field.read_back, Call.is_bgn, Call.is_end]
    | u32 v => exact absurd hm (by simp [Call.Mirrored])
    | f64 v => exact absurd hm (by simp [Call.Mirrored])
    | bin value =>
      obtain ⟨hl, hlen, hsz, hb⟩ := hm
      have htake : value.buf.take value.len = value.buf := by
        rw [hlen, List.take_length]
      have h := read_bin_wire_intact env hst value.buf d label further hb (by omega) hd hl
      rw [← hlen] at h
      simp only [Reader.step, Call.mirror, Field.op, Reader.read_field, Call.lines, Field.tag,
        Field.text, Field.payload_line, htake, h]
      simp [Except.map, read_back, Field.read_back, Call.is_bgn, Call.is_end, htake]
    | cstr s =>
      obtain ⟨hl, hs, hsz⟩ := hm
      have h := read_cstr_wire_intact env hst s d label further hs hsz hd hl
      simp only [Reader.step, Call.mirror, Field.op, Reader.read_field, Call.lines, Field.tag,
        Field.text, Field.payload_line, h]
      simp [Except.map, read_back, Field.read_back, Call.is_bgn, Call.is_end]
    | arr_bgn n =>
      obtain ⟨hl, hn⟩ := hm
      have h := read_arr_bgn_wire d label n further (by omega) hl hn
      simp only [Reader.step, Call.mirror, Field.op, Reader.read_field, Call.lines, Field.tag,
        Field.text, Field.payload_line, List.append_assoc, List.cons_append, List.nil_append,
        h]
      simp [Except.map, read_back, Field.read_back, Call.is_bgn, Call.is_end]
    | obj_bgn =>
      have hl : ValidLabel label := hm
      have h := read_obj_bgn_wire d label further (by omega) hl
      simp only [Reader.step, Call.mirror, Field.op, Reader.read_field, Call.lines, Field.tag,
        Field.text, Field.payload_line, List.append_assoc, List.cons_append, List.nil_append,
        h]
      simp [Except.map, read_back, Field.read_back, Call.is_bgn, Call.is_end]

theorem mirrored_valid (c : Call) (hm : c.Mirrored) :
    ∀ label f, c = .field label f → ValidLabel label ∧ f.WF := by
  intro label f hc
  subst hc
  cases f with
  | i32 v => exact hm
  | u32 v => exact absurd hm (by simp [Call.Mirrored])
  | f64 v => exact absurd hm (by simp [Call.Mirrored])
  | bin value =>
    obtain ⟨hl, hlen, hsz, hb⟩ := hm
    refine ⟨hl, by rw [hlen], ?_, hb⟩
    omega
  | cstr s =>
    obtain ⟨hl, hs, hsz⟩ := hm
    refine ⟨hl, hs, ?_⟩
    omega
  | arr_bgn n =>
    obtain ⟨hl, hn⟩ := hm
    refine ⟨hl, ?_⟩
    show n < 18446744073709551616
    omega
  | obj_bgn => exact ⟨hm, trivial⟩

theorem read_back_cons (env : Env) (c : Call) (cs : List Call) :
    read_back env (c :: cs) = (read_back env [c]).head?.toList ++ read_back env cs := by
  cases c <;> simp [read_back]

/-- From depth `d`: the bytes a mirrored sequence emits are read back by its mirror. -/
theorem run_mirrored_from (env : Env) (strtod : List Nat → F64 × List Nat)
    (hst : ∀ t, env.stale t = some t) (cs : List Call) (d : Nat) (out further : List Nat)
    (hm : ∀ c ∈ cs, c.Mirrored)
    (hn : ∀ k, ends (cs.take k) ≤ d + begins (cs.take k))
    (hdepth : ∀ k, d + begins (cs.take k) - ends (cs.take k) ≤ 31) :
    ∃ emitted, Writer.run cs ⟨out, d⟩ = .ok ⟨out ++ emitted, d + begins cs - ends cs⟩ ∧
      Reader.run env strtod (cs.map Call.mirror) ⟨emitted ++ further, d⟩ =
        .ok (read_back env cs, ⟨further, d + begins cs - ends cs⟩) := by
  induction cs generalizing d out with
  | nil => exact ⟨[], by simp [Writer.run, begins, ends], by simp [Reader.run, read_back, begins, ends]⟩
  | cons c cs ih =>
    obtain ⟨b, e, hbdef, hedef, hbe, hee⟩ := bgn_end_bits c
    have hbc : begins (c :: cs) = begins cs + b := by rw [begins_cons, hbdef]
    have hec : ends (c :: cs) = ends cs + e := by rw [ends_cons, hedef]
    have hbk : ∀ k, begins (c :: cs.take k) = begins (cs.take k) + b := by
      intro k; rw [begins_cons, hbdef]
    have hek : ∀ k, ends (c :: cs.take k) = ends (cs.take k) + e := by
      intro k; rw [ends_cons, hedef]
    have hb0 : begins ([] : List Call) = 0 := rfl
    have he0 : ends ([] : List Call) = 0 := rfl
    have h1 := hn 1
    simp only [List.take_succ_cons, List.take_zero] at h1
    rw [begins_cons, ends_cons, hbdef, hedef, hb0, he0] at h1
    have hd0 := hdepth 0
    simp only [List.take_zero, hb0, he0] at hd0
    have hd1 := hdepth 1
    simp only [List.take_succ_cons, List.take_zero] at hd1
    rw [begins_cons, ends_cons, hbdef, hedef, hb0, he0] at hd1
    have hcm : c.Mirrored := hm c (by simp)
    have hepos : c.is_end = true → 0 < d := by
      intro hce
      have := hee hce
      omega
    have hstep := step_ok c out d (mirrored_valid c hcm) (by omega) hepos
    rw [hbdef, hedef] at hstep
    obtain ⟨e2, hw2, hr2⟩ := ih (d + b - e) (out ++ c.lines d)
      (fun c1 hc1 => hm c1 (by simp [hc1]))
      (by
        intro k
        have hk := hn (k + 1)
        simp only [List.take_succ_cons] at hk
        rw [hbk, hek] at hk
        omega)
      (by
        intro k
        have hk := hdepth (k + 1)
        have hk2 := hn (k + 1)
        simp only [List.take_succ_cons] at hk hk2
        rw [hbk, hek] at hk hk2
        omega)
    have hfull := hn (cs.length + 1)
    simp only [List.take_succ_cons, List.take_length] at hfull
    rw [hbc, hec] at hfull
    have hdep : d + b - e + begins cs - ends cs = d + begins (c :: cs) - ends (c :: cs) := by
      rw [hbc, hec]
      omega
    rw [hdep] at hw2 hr2
    refine ⟨c.lines d ++ e2, ?_, ?_⟩
    · simp only [Writer.run, hstep, ok_bind, hw2, List.append_assoc]
    · have hrs := read_step_intact env strtod hst c d (e2 ++ further) hcm (by omega) hepos
      rw [hbdef, hedef] at hrs
      simp only [List.map_cons, Reader.run, List.append_assoc, hrs, ok_bind, hr2]
      rw [read_back_cons env c cs]

/-- On a platform whose free leaves the line buffer in place the whole-stream round trip
holds: for every well-nested, closed sequence of int32, binary, string, array and object
calls (valid labels, counts and sizes in the range of long, nesting at most 31) run on a
fresh Writer, the mirrored reads on a fresh Reader over the produced bytes all succeed,
return what was written, consume the bytes to the end and leave depth 0, as the writer
does. -/
theorem run_mirrored_intact (env : Env) (strtod : List Nat → F64 × List Nat)
    (hst : ∀ t, env.stale t = some t) (cs : List Call) (hm : ∀ c ∈ cs, c.Mirrored)
    (hn : WellNested cs) (hclosed : ends cs = begins cs)
    (hdepth : ∀ k, begins (cs.take k) - ends (cs.take k) ≤ 31) :
    ∃ bytes, Writer.run cs ⟨[], 0⟩ = .ok ⟨bytes, 0⟩ ∧
      Reader.run env strtod (cs.map Call.mirror) ⟨bytes, 0⟩ =
        .ok (read_back env cs, ⟨[], 0⟩) := by
  obtain ⟨emitted, hw, hr⟩ := run_mirrored_from env strtod hst cs 0 [] [] hm
    (fun k => by simpa using hn k) (fun k => by simpa using hdepth k)
  have h0 : 0 + begins cs - ends cs = 0 := by omega
  rw [h0] at hw hr
  exact ⟨emitted, by simpa using hw, by simpa using hr⟩

end SFP
